import Mathlib

/-!
Verification of the Cryptal cryptographic primitives library.

This file shallowly embeds the Rust sources of the library into Lean and
settles a list of claims about them.  Machine integers are modelled as
natural numbers; wrapping arithmetic is written with an explicit modulus
where the wrap can be observed.  Byte strings are lists of naturals that
are kept below 256, and fixed arrays are lists indexed with a default.

Components embedded below:
* the big-endian U256 shift operators of src/primitives/ops.rs;
* the Argon2id reference-position computation, memory layout, block
  compression and parameter validation of src/derivation/argon2id;
* the ChaCha20 block function, the Poly1305 one-time MAC and the
  ChaCha20-Poly1305 AEAD of src/rng/chacha20.rs and
  src/encryption/poly1305;
* the GF(256) field and the Shamir split and combine operations of
  src/recovery/sss.
-/

namespace U256

/-- Truncation to 32 bits, the mask applied by a Rust u8 left shift is
written out at each use site instead. -/
def byteM : Nat := 256

/-- The shift amount taken from the right-hand operand: the low 16 bits,
built from bytes 30 and 31 of the big-endian array
(src/primitives/ops.rs, Shl and Shr). -/
def shiftAmount (rhs : List Nat) : Nat :=
  ((rhs.getD 30 0) <<< 8) ||| rhs.getD 31 0

/-- The ascending carry loop of the Shl implementation
(src/primitives/ops.rs lines 55-63): for each byte from index 0 the code
stores the truncated left shift or-ed with the carry taken from the
previous (more significant) byte and forwards the high bits as the next
carry.  The carry computed at the last byte is dropped. -/
def shlLoop (b : Nat) : Nat → List Nat → List Nat
  | _, [] => []
  | carry, v :: rest => (((v <<< b) % 256) ||| carry) :: shlLoop b (v >>> (8 - b)) rest

/-- Shl for U256 (src/primitives/ops.rs lines 32-67).  The value is a
big-endian list of 32 bytes. -/
def shl (a rhs : List Nat) : List Nat :=
  let shift := shiftAmount rhs
  if shift = 0 then a
  else if 256 ≤ shift then List.replicate 32 0
  else
    let byteShift := shift / 8
    let bitShift := shift % 8
    let tmp := a.drop byteShift ++ List.replicate byteShift 0
    if bitShift = 0 then tmp
    else shlLoop bitShift 0 tmp

/-- The descending carry loop of the Shr implementation
(src/primitives/ops.rs lines 92-100): bytes are visited from index 31
down to 0; each byte receives the carry produced by the byte with the
next larger index. -/
def shrLoop (b : Nat) : List Nat → List Nat × Nat
  | [] => ([], 0)
  | v :: rest =>
      let s := shrLoop b rest
      (((v >>> b) ||| s.2) :: s.1, (v <<< (8 - b)) % 256)

/-- Shr for U256 (src/primitives/ops.rs lines 69-104). -/
def shr (a rhs : List Nat) : List Nat :=
  let shift := shiftAmount rhs
  if shift = 0 then a
  else if 256 ≤ shift then List.replicate 32 0
  else
    let byteShift := shift / 8
    let bitShift := shift % 8
    let tmp := List.replicate byteShift 0 ++ a.take (32 - byteShift)
    if bitShift = 0 then tmp
    else (shrLoop bitShift tmp).1

/-- The U256 value 128: big-endian bytes with the least significant byte
equal to 0x80. -/
def val128 : List Nat := List.replicate 31 0 ++ [128]

/-- The U256 value 1, also used as a shift amount of one bit. -/
def val1 : List Nat := List.replicate 31 0 ++ [1]

/-- The U256 value 0. -/
def val0 : List Nat := List.replicate 32 0

end U256

/-- C8.  The spec claims that for every U256 value a and every shift
amount k below 256, shifting left by k and then right by k returns a.
The code violates this on a = 128, k = 1: the left-shift loop walks the
big-endian bytes from the most significant end and hands the carry bits
of each byte to the byte on its less significant side, so the high bit
of the last byte is dropped instead of moving into byte 30, giving
128 <<< 1 = 0 and hence a round trip of 0 instead of 128.  At this input
the claimed identity is unambiguous (128 · 2 = 256 fits in 256 bits), so
the code, not the claim, is wrong. -/
theorem u256_shift_roundtrip_fails_at_128 :
    U256.shr (U256.shl U256.val128 U256.val1) U256.val1 = U256.val0 ∧
    U256.val128 ≠ U256.val0 := by decide

namespace Argon2

/-- The modulus of Rust u32 arithmetic. -/
def U32M : Nat := 4294967296

/-- Memory layout parameters (src/derivation/argon2id/memory.rs lines
20-25). -/
structure MemoryLayout where
  lanes : Nat
  laneLen : Nat
  segmentLen : Nat
  totalBlocks : Nat

/-- MemoryLayout::new (src/derivation/argon2id/memory.rs lines 28-41).
Rust division by zero aborts; the Lean value 0 of that case is never
relied upon below. -/
def MemoryLayout.ofParams (memKib lanes : Nat) : MemoryLayout :=
  let syncPoints := 4
  let totalBlocks := memKib / (syncPoints * lanes) % U32M * (syncPoints * lanes) % U32M
  let laneLen := totalBlocks / lanes
  let segmentLen := laneLen / syncPoints
  ⟨lanes, laneLen, segmentLen, totalBlocks⟩

/-- MemoryLayout::index (src/derivation/argon2id/memory.rs line 44). -/
def MemoryLayout.idx (L : MemoryLayout) (lane indexInLane : Nat) : Nat :=
  lane * L.laneLen + indexInLane

/-- compute_reference_position
(src/derivation/argon2id/reference.rs lines 26-92).  Rust u32 products
and sums are wrapped explicitly; the plain u32 subtractions of the
source underflow only on inputs that abort a debug build, and on the
bounded inputs treated by the theorems below they agree with the
truncated subtraction used here, which also models the saturating_sub
calls of the source exactly. -/
def computeReferencePosition (pass slice lane indexInSegment : Nat)
    (L : MemoryLayout) (j1 j2 : Nat) : Nat × Nat :=
  let segmentLen := L.segmentLen
  let laneLen := L.laneLen
  let lanes := L.lanes
  let refLane := if pass = 0 ∧ slice = 0 then lane else j2 % lanes
  let sameLane := refLane = lane
  let referenceAreaSize :=
    if pass = 0 then
      if slice = 0 then
        indexInSegment - 1
      else if sameLane then
        (slice * segmentLen % U32M + indexInSegment) % U32M - 1
      else
        let base := slice * segmentLen % U32M
        if indexInSegment = 0 then base - 1 else base
    else if sameLane then
      ((laneLen - segmentLen) + indexInSegment) % U32M - 1
    else
      let base := laneLen - segmentLen
      if indexInSegment = 0 then base - 1 else base
  if referenceAreaSize = 0 then (refLane, 0)
  else
    let x := (j1 * j1) >>> 32
    let relativePosition := ((referenceAreaSize - 1) - (referenceAreaSize * x) >>> 32) % U32M
    let startPosition := if pass = 0 ∨ slice = 3 then 0 else (slice + 1) * segmentLen % U32M
    let refIndex := (startPosition + relativePosition) % U32M % laneLen
    (refLane, refIndex)

/-- The reference position exactly as the specification words it: the
lane selection rule, the five-case reference area size W, the empty
window rule, and the phi mapping
ref_index = (start + (W - 1) - ((W * ((J1 * J1) >> 32)) >> 32)) mod
lane_len with start = 0 on pass 0 or slice 3 and
(slice + 1) * segment_len otherwise.  All arithmetic is exact. -/
def referencePositionSpec (pass slice lane indexInSegment : Nat)
    (L : MemoryLayout) (j1 j2 : Nat) : Nat × Nat :=
  let refLane := if pass = 0 ∧ slice = 0 then lane else j2 % L.lanes
  let w :=
    if pass = 0 ∧ slice = 0 then indexInSegment - 1
    else if pass = 0 ∧ refLane = lane then slice * L.segmentLen + indexInSegment - 1
    else if pass = 0 then slice * L.segmentLen - (if indexInSegment = 0 then 1 else 0)
    else if refLane = lane then L.laneLen - L.segmentLen + indexInSegment - 1
    else (L.laneLen - L.segmentLen) - (if indexInSegment = 0 then 1 else 0)
  if w = 0 then (refLane, 0)
  else
    let start := if pass = 0 ∨ slice = 3 then 0 else (slice + 1) * L.segmentLen
    (refLane, (start + ((w - 1) - (w * ((j1 * j1) >>> 32)) >>> 32)) % L.laneLen)

/-- Removing the u32 wraps from the phi mapping: with a reference area
and a start offset of at most 2^31 the wrapped composition agrees with
the exact one. -/
theorem phiComponentEq (w start ll j1 : Nat) (hw : w ≤ 2 ^ 31) (hstart : start ≤ 2 ^ 31) :
    (start + ((w - 1) - (w * ((j1 * j1) >>> 32)) >>> 32) % U32M) % U32M % ll
      = (start + ((w - 1) - (w * ((j1 * j1) >>> 32)) >>> 32)) % ll := by
  have hU : U32M = 2 ^ 32 := by decide
  have hrel : (w - 1) - (w * ((j1 * j1) >>> 32)) >>> 32 ≤ w - 1 := Nat.sub_le _ _
  set y := (w - 1) - (w * ((j1 * j1) >>> 32)) >>> 32 with hy
  have h3 : y % U32M = y := by rw [hU]; omega
  have h4 : (start + y) % U32M = start + y := by rw [hU]; omega
  rw [h3, h4]

/-- A branch of the source written with the subtraction under the
conditional, as the specification words it. -/
theorem iteSubOne (c : Prop) [Decidable c] (b : Nat) :
    (if c then b - 1 else b) = b - (if c then 1 else 0) := by
  split <;> simp

end Argon2

/-- C5, corrected.  The claimed formula does not hold for every
reachable layout: once lane_len exceeds 2^31 the u32 sum
start_position + relative_position in the source wraps while the
specification's arithmetic is exact, and such layouts are reachable
from parameters that validate accepts (see the counterexample
theorem below).  Corrected claim: for layouts of the shape produced by
the code (lane_len = 4 * segment_len with at least one nonempty
segment) with at most 2^31 blocks per lane, and for positions
reachable during filling (index_in_segment below segment_len, at least
2 on the first slice of the first pass, slice below 4, u32 values for
J1 and J2), compute_reference_position returns exactly the value
described by the specification: ref_lane is the current lane on pass 0
slice 0 and J2 mod lanes otherwise, the reference area size W follows
the five spec cases, an empty window yields index 0, and otherwise the
phi mapping with the spec start offset is applied modulo lane_len. -/
theorem argon2_reference_position_follows_spec
    (pass slice lane indexInSegment : Nat) (L : Argon2.MemoryLayout) (j1 j2 : Nat)
    (hlanes : 1 ≤ L.lanes)
    (hlayout : L.laneLen = 4 * L.segmentLen)
    (hseg : 1 ≤ L.segmentLen)
    (hll : L.laneLen ≤ 2 ^ 31)
    (hslice : slice < 4)
    (hidx : indexInSegment < L.segmentLen)
    (hfirst : pass = 0 → slice = 0 → 2 ≤ indexInSegment)
    (hj1 : j1 < 2 ^ 32) :
    Argon2.computeReferencePosition pass slice lane indexInSegment L j1 j2 =
      Argon2.referencePositionSpec pass slice lane indexInSegment L j1 j2 := by
  have hU : Argon2.U32M = 2 ^ 32 := by decide
  have b1 : slice * L.segmentLen ≤ 3 * L.segmentLen :=
    Nat.mul_le_mul_right L.segmentLen (by omega)
  have b2 : (slice + 1) * L.segmentLen ≤ 4 * L.segmentLen :=
    Nat.mul_le_mul_right L.segmentLen (by omega)
  have e1 : slice * L.segmentLen % Argon2.U32M = slice * L.segmentLen :=
    Nat.mod_eq_of_lt (by omega)
  have e2 : (slice * L.segmentLen + indexInSegment) % Argon2.U32M =
      slice * L.segmentLen + indexInSegment := Nat.mod_eq_of_lt (by omega)
  have e3 : ((L.laneLen - L.segmentLen) + indexInSegment) % Argon2.U32M =
      (L.laneLen - L.segmentLen) + indexInSegment := Nat.mod_eq_of_lt (by omega)
  have e4 : (slice + 1) * L.segmentLen % Argon2.U32M = (slice + 1) * L.segmentLen :=
    Nat.mod_eq_of_lt (by omega)
  simp only [Argon2.computeReferencePosition, Argon2.referencePositionSpec]
  simp only [e1, e2, e3, e4, Argon2.iteSubOne]
  by_cases hp : pass = 0
  · subst hp
    simp only [eq_self_iff_true, true_and, true_or, if_true, reduceIte]
    rw [Argon2.phiComponentEq]
    · split <;> first | omega | (split <;> omega)
    · omega
  · simp only [hp, false_and, if_false, false_or, reduceIte]
    rw [Argon2.phiComponentEq]
    · split <;> omega
    · split <;> omega

/-- Witness for C5 at a concrete reachable position. -/
theorem argon2_reference_position_follows_spec_witness :
    Argon2.computeReferencePosition 0 1 0 1 ⟨1, 8, 2, 8⟩ 123456789 0 =
      Argon2.referencePositionSpec 0 1 0 1 ⟨1, 8, 2, 8⟩ 123456789 0 :=
  argon2_reference_position_follows_spec 0 1 0 1 ⟨1, 8, 2, 8⟩ 123456789 0
    (by decide) (by decide) (by decide) (by decide) (by decide) (by decide)
    (by omega) (by decide)

namespace Aead

/-- Rust u32 arithmetic modulus. -/
def U32M : Nat := 4294967296

/-- Rust u64 arithmetic modulus. -/
def U64M : Nat := 18446744073709551616

/-- u32 wrapping truncation. -/
def w32 (n : Nat) : Nat := n % U32M

/-- u64 wrapping truncation. -/
def w64 (n : Nat) : Nat := n % U64M

/-- u32 rotate_left. -/
def rotl32 (x n : Nat) : Nat := ((x <<< n) % U32M) ||| (x >>> (32 - n))

/-- u32::from_le_bytes of four consecutive bytes of a byte list. -/
def le32At (l : List Nat) (o : Nat) : Nat :=
  l.getD o 0 + l.getD (o + 1) 0 * 256 + l.getD (o + 2) 0 * 65536 +
    l.getD (o + 3) 0 * 16777216

/-- u32::to_le_bytes. -/
def le32Bytes (w : Nat) : List Nat :=
  [w % 256, w / 256 % 256, w / 65536 % 256, w / 16777216 % 256]

/-- u64::to_le_bytes. -/
def le64Bytes (w : Nat) : List Nat :=
  [w % 256, w / 256 % 256, w / 65536 % 256, w / 16777216 % 256,
   w / 4294967296 % 256, w / 1099511627776 % 256,
   w / 281474976710656 % 256, w / 72057594037927936 % 256]

/-- The four ChaCha20 constant words (src/rng/chacha20.rs lines 25-30). -/
def chachaConstants : List Nat := [0x61707865, 0x3320646e, 0x79622d32, 0x6b206574]

/-- One ChaCha20 quarter round (src/rng/chacha20.rs lines 40-56),
written as successive updates of a 16-word state list. -/
def quarterRound (s : List Nat) (a b c d : Nat) : List Nat :=
  let s1 := s.set a (w32 (s.getD a 0 + s.getD b 0))
  let s2 := s1.set d (s1.getD d 0 ^^^ s1.getD a 0)
  let s3 := s2.set d (rotl32 (s2.getD d 0) 16)
  let s4 := s3.set c (w32 (s3.getD c 0 + s3.getD d 0))
  let s5 := s4.set b (s4.getD b 0 ^^^ s4.getD c 0)
  let s6 := s5.set b (rotl32 (s5.getD b 0) 12)
  let s7 := s6.set a (w32 (s6.getD a 0 + s6.getD b 0))
  let s8 := s7.set d (s7.getD d 0 ^^^ s7.getD a 0)
  let s9 := s8.set d (rotl32 (s8.getD d 0) 8)
  let s10 := s9.set c (w32 (s9.getD c 0 + s9.getD d 0))
  let s11 := s10.set b (s10.getD b 0 ^^^ s10.getD c 0)
  s11.set b (rotl32 (s11.getD b 0) 7)

/-- One double round: four column and four diagonal quarter rounds
(src/rng/chacha20.rs lines 66-80). -/
def doubleRound (s : List Nat) : List Nat :=
  let s := quarterRound s 0 4 8 12
  let s := quarterRound s 1 5 9 13
  let s := quarterRound s 2 6 10 14
  let s := quarterRound s 3 7 11 15
  let s := quarterRound s 0 5 10 15
  let s := quarterRound s 1 6 11 12
  let s := quarterRound s 2 7 8 13
  quarterRound s 3 4 9 14

/-- The full 20-round ChaCha20 permutation (src/rng/chacha20.rs
lines 66-80). -/
def chachaRounds (s : List Nat) : List Nat :=
  (List.range 10).foldl (fun s _ => doubleRound s) s

/-- The ChaCha20 block function (src/rng/chacha20.rs lines 96-142):
initialise the state, permute, add the original state back and
serialise little-endian. -/
def chachaBlock (key : List Nat) (counter : Nat) (nonce : List Nat) : List Nat :=
  let state := chachaConstants ++ (List.range 8).map (fun i => le32At key (4 * i)) ++
    [counter] ++ (List.range 3).map (fun i => le32At nonce (4 * i))
  let final := List.zipWith (fun a b => w32 (a + b)) (chachaRounds state) state
  (final.map le32Bytes).flatten

/-- The ChaCha20 keystream XOR (src/rng/chacha20.rs lines 160-181):
successive keystream blocks from the given counter are XORed onto the
input, 64 bytes at a time, the block counter wrapping as a u32. -/
def chachaXor (key nonce : List Nat) (counter : Nat) (input : List Nat) : List Nat :=
  if input.isEmpty then []
  else
    let keystream := chachaBlock key counter nonce
    List.zipWith Nat.xor (input.take 64) keystream ++
      chachaXor key nonce ((counter + 1) % U32M) (input.drop 64)
termination_by input.length
decreasing_by
  rename_i h
  have h2 : input ≠ [] := by
    intro he
    exact h (by simp [he])
  have h3 : 0 < input.length := List.length_pos.mpr h2
  simp only [List.length_drop]
  omega

end Aead

namespace Aead

/-- The Poly1305 state (src/encryption/poly1305/mac.rs lines 14-30):
the clamped r in five 26-bit limbs, the accumulator h in five 26-bit
limbs, and the raw s half of the one-time key. -/
structure Poly1305 where
  r : List Nat
  h : List Nat
  s : List Nat

/-- Poly1305::new (src/encryption/poly1305/mac.rs lines 50-93). -/
def Poly1305.new (oneTimeKey : List Nat) : Poly1305 :=
  let r0 := le32At oneTimeKey 0
  let r1 := le32At oneTimeKey 4
  let r2 := le32At oneTimeKey 8
  let r3 := le32At oneTimeKey 12
  let r0 := r0 &&& 0x0fffffff
  let r1 := r1 &&& 0x0ffffffc
  let r2 := r2 &&& 0x0ffffffc
  let r3 := r3 &&& 0x0ffffffc
  let r := [r0 &&& 0x3ffffff,
            ((r0 >>> 26) ||| (r1 <<< 6)) &&& 0x3ffffff,
            ((r1 >>> 20) ||| (r2 <<< 12)) &&& 0x3ffffff,
            ((r2 >>> 14) ||| (r3 <<< 18)) &&& 0x3ffffff,
            (r3 >>> 8) &&& 0x3ffffff]
  ⟨r, [0, 0, 0, 0, 0], (oneTimeKey.drop 16).take 16⟩

/-- Poly1305::update_block (src/encryption/poly1305/mac.rs lines
117-188).  The u64 products and carries are wrapped at 2^64 exactly as
a release build would; the masks are those of the source. -/
def Poly1305.updateBlock (st : Poly1305) (block : List Nat) : Poly1305 :=
  let padded := block ++ [1] ++ List.replicate (16 - block.length) 0
  let t0 := le32At padded 0
  let t1 := le32At padded 4
  let t2 := le32At padded 8
  let t3 := le32At padded 12
  let t4 := padded.getD 16 0
  let m0 := t0 &&& 0x3ffffff
  let m1 := ((t0 >>> 26) ||| (t1 <<< 6)) &&& 0x3ffffff
  let m2 := ((t1 >>> 20) ||| (t2 <<< 12)) &&& 0x3ffffff
  let m3 := ((t2 >>> 14) ||| (t3 <<< 18)) &&& 0x3ffffff
  let m4 := ((t3 >>> 8) ||| (t4 <<< 24)) &&& 0x3ffffff
  let h0 := w32 (st.h.getD 0 0 + m0)
  let h1 := w32 (st.h.getD 1 0 + m1)
  let h2 := w32 (st.h.getD 2 0 + m2)
  let h3 := w32 (st.h.getD 3 0 + m3)
  let h4 := w32 (st.h.getD 4 0 + m4)
  let r0 := st.r.getD 0 0
  let r1 := st.r.getD 1 0
  let r2 := st.r.getD 2 0
  let r3 := st.r.getD 3 0
  let r4 := st.r.getD 4 0
  let r1x5 := r1 * 5
  let r2x5 := r2 * 5
  let r3x5 := r3 * 5
  let r4x5 := r4 * 5
  let d0 := w64 (h0 * r0 + h1 * r4x5 + h2 * r3x5 + h3 * r2x5 + h4 * r1x5)
  let d1 := w64 (h0 * r1 + h1 * r0 + h2 * r4x5 + h3 * r3x5 + h4 * r2x5)
  let d2 := w64 (h0 * r2 + h1 * r1 + h2 * r0 + h3 * r4x5 + h4 * r3x5)
  let d3 := w64 (h0 * r3 + h1 * r2 + h2 * r1 + h3 * r0 + h4 * r4x5)
  let d4 := w64 (h0 * r4 + h1 * r3 + h2 * r2 + h3 * r1 + h4 * r0)
  let c := d0 >>> 26
  let h0 := d0 &&& 0x3ffffff
  let d1 := w64 (d1 + c)
  let c := d1 >>> 26
  let h1 := d1 &&& 0x3ffffff
  let d2 := w64 (d2 + c)
  let c := d2 >>> 26
  let h2 := d2 &&& 0x3ffffff
  let d3 := w64 (d3 + c)
  let c := d3 >>> 26
  let h3 := d3 &&& 0x3ffffff
  let d4 := w64 (d4 + c)
  let c := d4 >>> 26
  let h4 := d4 &&& 0x3ffffff
  let h0 := w32 (h0 + (c * 5) % U32M)
  let c := h0 >>> 26
  let h0 := h0 &&& 0x3ffffff
  let h1 := w32 (h1 + c)
  ⟨st.r, [h0, h1, h2, h3, h4], st.s⟩

/-- Poly1305::finalize (src/encryption/poly1305/mac.rs lines 210-270). -/
def Poly1305.final (st : Poly1305) : List Nat :=
  let h0 := st.h.getD 0 0
  let h1 := st.h.getD 1 0
  let h2 := st.h.getD 2 0
  let h3 := st.h.getD 3 0
  let h4 := st.h.getD 4 0
  let c := h1 >>> 26
  let h1 := h1 &&& 0x3ffffff
  let h2 := w32 (h2 + c)
  let c := h2 >>> 26
  let h2 := h2 &&& 0x3ffffff
  let h3 := w32 (h3 + c)
  let c := h3 >>> 26
  let h3 := h3 &&& 0x3ffffff
  let h4 := w32 (h4 + c)
  let c := h4 >>> 26
  let h4 := h4 &&& 0x3ffffff
  let h0 := w32 (h0 + c * 5)
  let c := h0 >>> 26
  let h0 := h0 &&& 0x3ffffff
  let h1 := w32 (h1 + c)
  let g0 := w32 (h0 + 5)
  let c := g0 >>> 26
  let g0 := g0 &&& 0x3ffffff
  let g1 := w32 (h1 + c)
  let c := g1 >>> 26
  let g1 := g1 &&& 0x3ffffff
  let g2 := w32 (h2 + c)
  let c := g2 >>> 26
  let g2 := g2 &&& 0x3ffffff
  let g3 := w32 (h3 + c)
  let c := g3 >>> 26
  let g3 := g3 &&& 0x3ffffff
  let g4 := w32 (h4 + c)
  let c := g4 >>> 26
  let g4 := g4 &&& 0x3ffffff
  let mask := (U32M - c) % U32M
  let nmask := 4294967295 ^^^ mask
  let h0 := (h0 &&& nmask) ||| (g0 &&& mask)
  let h1 := (h1 &&& nmask) ||| (g1 &&& mask)
  let h2 := (h2 &&& nmask) ||| (g2 &&& mask)
  let h3 := (h3 &&& nmask) ||| (g3 &&& mask)
  let h4 := (h4 &&& nmask) ||| (g4 &&& mask)
  let p0 := h0 ||| ((h1 <<< 26) % U32M)
  let p1 := (h1 >>> 6) ||| ((h2 <<< 20) % U32M)
  let p2 := (h2 >>> 12) ||| ((h3 <<< 14) % U32M)
  let p3 := (h3 >>> 18) ||| ((h4 <<< 8) % U32M)
  let hBytes := le32Bytes p0 ++ le32Bytes p1 ++ le32Bytes p2 ++ le32Bytes p3
  ((List.range 16).foldl
    (fun (acc : List Nat × Nat) i =>
      let sum := hBytes.getD i 0 + st.s.getD i 0 + acc.2
      (acc.1 ++ [sum % 256], sum >>> 8))
    ([], 0)).1

/-- The chunk loop of auth (src/encryption/poly1305/core.rs lines
201-203): msg.chunks(16) visits the message sixteen bytes at a time and
yields nothing for an empty message. -/
def Poly1305.updateChunks (st : Poly1305) (msg : List Nat) : Poly1305 :=
  if msg.isEmpty then st
  else Poly1305.updateChunks (st.updateBlock (msg.take 16)) (msg.drop 16)
termination_by msg.length
decreasing_by
  rename_i h
  have h2 : msg ≠ [] := by
    intro he
    exact h (by simp [he])
  have h3 : 0 < msg.length := List.length_pos.mpr h2
  simp only [List.length_drop]
  omega

/-- auth (src/encryption/poly1305/core.rs lines 198-206). -/
def auth (oneTimeKey msg : List Nat) : List Nat :=
  ((Poly1305.new oneTimeKey).updateChunks msg).final

/-- The fixed associated data (src/encryption/poly1305/core.rs line 31):
the public API takes no AAD parameter and this constant is empty. -/
def AAD : List Nat := []

/-- Decryption errors (src/encryption/poly1305/core.rs lines 35-40). -/
inductive Chacha20Poly1305Error
  | invalidLength
  | authenticationFailed
deriving DecidableEq

/-- pad16 (src/encryption/poly1305/core.rs lines 179-184): append zero
bytes until the length is a multiple of sixteen. -/
def pad16 (buf : List Nat) : List Nat :=
  let rem := buf.length % 16
  if rem ≠ 0 then buf ++ List.replicate (16 - rem) 0 else buf

/-- The Poly1305 input built by both encrypt and decrypt
(src/encryption/poly1305/core.rs lines 89-98 and 146-155): the AAD
constant padded, the ciphertext padded, then the two little-endian
64-bit lengths. -/
def macData (ciphertext : List Nat) : List Nat :=
  let m := AAD
  let m := pad16 m
  let m := m ++ ciphertext
  let m := pad16 m
  let m := m ++ le64Bytes AAD.length
  m ++ le64Bytes ciphertext.length

/-- encrypt (src/encryption/poly1305/core.rs lines 71-102), returning
the ciphertext and the tag.  The source writes into a caller buffer
asserted to have the plaintext length; the returned list takes its
place. -/
def encrypt (key nonce plaintext : List Nat) : List Nat × List Nat :=
  let block0 := chachaBlock key 0 nonce
  let otk := block0.take 32
  let ciphertext := chachaXor key nonce 1 plaintext
  (ciphertext, auth otk (macData ciphertext))

/-- decrypt (src/encryption/poly1305/core.rs lines 131-173).  The
result pairs the status with the caller plaintext buffer as it stands
when the function returns: the source writes the decrypted bytes into
it only after the length check and the constant-time tag comparison
have both passed, so both error paths return it untouched. -/
def decrypt (key nonce ciphertext tag plaintext : List Nat) :
    Except Chacha20Poly1305Error Unit × List Nat :=
  if plaintext.length ≠ ciphertext.length then (.error .invalidLength, plaintext)
  else
    let block0 := chachaBlock key 0 nonce
    let otk := block0.take 32
    let expectedTag := auth otk (macData ciphertext)
    let diff := (List.range 16).foldl
      (fun d i => d ||| (expectedTag.getD i 0 ^^^ tag.getD i 0)) 0
    if diff ≠ 0 then (.error .authenticationFailed, plaintext)
    else (.ok (), chachaXor key nonce 1 ciphertext)

end Aead

namespace Aead

theorem chachaXor_nil (key nonce : List Nat) (counter : Nat) :
    chachaXor key nonce counter [] = [] := by
  rw [chachaXor]
  rfl

theorem quarterRound_length (s : List Nat) (a b c d : Nat) :
    (quarterRound s a b c d).length = s.length := by
  simp [quarterRound]

theorem doubleRound_length (s : List Nat) :
    (doubleRound s).length = s.length := by
  simp [doubleRound, quarterRound_length]

theorem chachaRounds_length (s : List Nat) :
    (chachaRounds s).length = s.length := by
  unfold chachaRounds
  induction (List.range 10) generalizing s with
  | nil => rfl
  | cons x xs ih => simpa [doubleRound_length] using ih (doubleRound s)

theorem flatten_le32Bytes_length (l : List Nat) :
    ((l.map le32Bytes).flatten).length = 4 * l.length := by
  induction l with
  | nil => rfl
  | cons x xs ih => simp [le32Bytes, ih]; omega

theorem chachaBlock_length (key : List Nat) (counter : Nat) (nonce : List Nat) :
    (chachaBlock key counter nonce).length = 64 := by
  unfold chachaBlock
  rw [flatten_le32Bytes_length]
  simp [chachaRounds_length, chachaConstants]

theorem chachaXor_length (key nonce : List Nat) :
    ∀ m (input : List Nat) (counter : Nat), input.length ≤ m →
      (chachaXor key nonce counter input).length = input.length := by
  intro m
  induction m with
  | zero =>
      intro input counter h
      have : input = [] := List.eq_nil_of_length_eq_zero (by omega)
      subst this
      simp [chachaXor_nil]
  | succ m ih =>
      intro input counter h
      rw [chachaXor]
      by_cases he : input.isEmpty
      · simp [he]
        have : input = [] := by
          cases input
          · rfl
          · simp at he
        simp [this]
      · simp only [he, if_false, Bool.false_eq_true]
        have hne : input ≠ [] := by
          intro hx
          subst hx
          simp at he
        have hpos : 0 < input.length := List.length_pos.mpr hne
        rw [List.length_append, List.length_zipWith, chachaBlock_length,
          ih (input.drop 64) ((counter + 1) % U32M) (by simp [List.length_drop]; omega)]
        simp [List.length_take, List.length_drop]
        omega

theorem zipWith_xor_cancel :
    ∀ (l ks : List Nat), l.length ≤ ks.length →
      List.zipWith Nat.xor (List.zipWith Nat.xor l ks) ks = l := by
  intro l
  induction l with
  | nil => intro ks h; simp
  | cons x xs ih =>
      intro ks h
      cases ks with
      | nil => simp at h
      | cons k kt =>
          simp only [List.zipWith_cons_cons, List.cons.injEq]
          refine ⟨show (x ^^^ k) ^^^ k = x by
            rw [Nat.xor_assoc, Nat.xor_self, Nat.xor_zero], ih kt (by simpa using h)⟩

theorem chachaXor_involution (key nonce : List Nat) :
    ∀ m (input : List Nat) (counter : Nat), input.length ≤ m →
      chachaXor key nonce counter (chachaXor key nonce counter input) = input := by
  intro m
  induction m with
  | zero =>
      intro input counter h
      have : input = [] := List.eq_nil_of_length_eq_zero (by omega)
      subst this
      simp [chachaXor_nil]
  | succ m ih =>
      intro input counter h
      by_cases he : input.isEmpty
      · have : input = [] := by
          cases input
          · rfl
          · simp at he
        simp [this, chachaXor_nil]
      · have hne : input ≠ [] := by
          intro hx
          subst hx
          simp at he
        have hpos : 0 < input.length := List.length_pos.mpr hne
        have hks : (chachaBlock key counter nonce).length = 64 := chachaBlock_length _ _ _
        set A := List.zipWith Nat.xor (input.take 64) (chachaBlock key counter nonce) with hA
        set B := chachaXor key nonce ((counter + 1) % U32M) (input.drop 64) with hB
        have hinner : chachaXor key nonce counter input = A ++ B := by
          rw [chachaXor, if_neg (by simpa using he)]
        have hAlen : A.length = min 64 input.length := by
          rw [hA, List.length_zipWith, List.length_take, hks]
          omega
        have hAne : A ≠ [] := by
          intro hAe
          have hz := congrArg List.length hAe
          rw [hAlen] at hz
          simp only [List.length_nil] at hz
          omega
        have hABne : (A ++ B).isEmpty = false := by
          cases hAB : A ++ B with
          | nil => exact absurd (List.append_eq_nil.mp hAB).1 hAne
          | cons y ys => simp
        have houter : chachaXor key nonce counter (A ++ B) =
            List.zipWith Nat.xor ((A ++ B).take 64) (chachaBlock key counter nonce) ++
              chachaXor key nonce ((counter + 1) % U32M) ((A ++ B).drop 64) := by
          rw [chachaXor, if_neg (by simp [hABne])]
        rw [hinner, houter]
        by_cases hlong : 64 < input.length
        · have hA64 : A.length = 64 := by omega
          have htake : (A ++ B).take 64 = A := by
            rw [List.take_append_eq_append_take,
              List.take_of_length_le (le_of_eq hA64), hA64]
            simp
          have hdrop : (A ++ B).drop 64 = B := by
            rw [List.drop_append_eq_append_drop,
              List.drop_eq_nil_of_le (le_of_eq hA64), hA64]
            simp
          rw [htake, hdrop, hA]
          rw [zipWith_xor_cancel (input.take 64) (chachaBlock key counter nonce)
            (by rw [hks, List.length_take]; omega)]
          rw [hB, ih (input.drop 64) ((counter + 1) % U32M)
            (by rw [List.length_drop]; omega)]
          exact List.take_append_drop 64 input
        · have hle : input.length ≤ 64 := by omega
          have hAle : A.length ≤ 64 := by omega
          have hdropnil : input.drop 64 = [] := List.drop_eq_nil_of_le hle
          have hBnil : B = [] := by rw [hB, hdropnil, chachaXor_nil]
          have htake' : input.take 64 = input := List.take_of_length_le hle
          have htake : (A ++ B).take 64 = A := by
            rw [hBnil, List.append_nil]
            exact List.take_of_length_le hAle
          have hdrop : (A ++ B).drop 64 = [] := by
            rw [hBnil, List.append_nil]
            exact List.drop_eq_nil_of_le hAle
          rw [htake, hdrop, chachaXor_nil, List.append_nil, hA, htake']
          exact zipWith_xor_cancel input (chachaBlock key counter nonce)
            (by rw [hks]; omega)

theorem foldl_or_xor_self (t : List Nat) :
    ∀ (l : List Nat) (d : Nat),
      l.foldl (fun d i => d ||| (t.getD i 0 ^^^ t.getD i 0)) d = d := by
  intro l
  induction l with
  | nil => intro d; rfl
  | cons x xs ih => intro d; simp [List.foldl_cons, Nat.xor_self, Nat.or_zero, ih]

end Aead

/-- C2.  ChaCha20-Poly1305 round trip: decrypting the ciphertext and
tag produced by encrypt with the same key and nonce succeeds and
returns the original plaintext, for every key, nonce and plaintext and
every correctly sized output buffer.  The public functions carry no
associated-data parameter; the construction fixes the AAD to the empty
string on both sides (claim C9), so the round trip covers every call
the API admits. -/
theorem chacha20poly1305_roundtrip (key nonce plaintext buf : List Nat)
    (hbuf : buf.length = plaintext.length) :
    Aead.decrypt key nonce (Aead.encrypt key nonce plaintext).1
        (Aead.encrypt key nonce plaintext).2 buf =
      (Except.ok (), plaintext) := by
  have hC : (Aead.chachaXor key nonce 1 plaintext).length = plaintext.length :=
    Aead.chachaXor_length key nonce plaintext.length plaintext 1 le_rfl
  simp only [Aead.encrypt, Aead.decrypt]
  rw [if_neg (by omega)]
  rw [Aead.foldl_or_xor_self]
  rw [if_neg (by simp)]
  exact congrArg (Prod.mk _)
    (Aead.chachaXor_involution key nonce plaintext.length plaintext 1 le_rfl)

/-- Witness for C2 on a concrete key, nonce and plaintext. -/
theorem chacha20poly1305_roundtrip_witness :
    Aead.decrypt (List.replicate 32 7) (List.replicate 12 3)
        (Aead.encrypt (List.replicate 32 7) (List.replicate 12 3) [10, 20, 30]).1
        (Aead.encrypt (List.replicate 32 7) (List.replicate 12 3) [10, 20, 30]).2
        [0, 0, 0] =
      (Except.ok (), [10, 20, 30]) :=
  chacha20poly1305_roundtrip (List.replicate 32 7) (List.replicate 12 3)
    [10, 20, 30] [0, 0, 0] (by decide)

/-- C4.  Whenever decrypt returns an error, the plaintext output buffer
is returned exactly as it was passed in: the source performs the
keystream XOR that writes the plaintext only after the length check and
the constant-time tag comparison have both succeeded, so both error
paths leave the buffer untouched. -/
theorem chacha20poly1305_decrypt_error_leaves_buffer
    (key nonce ciphertext tag buf : List Nat) (e : Aead.Chacha20Poly1305Error)
    (h : (Aead.decrypt key nonce ciphertext tag buf).1 = .error e) :
    (Aead.decrypt key nonce ciphertext tag buf).2 = buf := by
  unfold Aead.decrypt at h ⊢
  by_cases h1 : buf.length ≠ ciphertext.length
  · rw [if_pos h1]
  · rw [if_neg h1] at h ⊢
    dsimp only at h ⊢
    split at h
    · rename_i h2
      rw [if_pos h2]
    · rename_i h2
      rw [if_neg h2]
      simp at h

/-- Witness for C4 on a concrete erroring input (a length mismatch). -/
theorem chacha20poly1305_decrypt_error_leaves_buffer_witness :
    (Aead.decrypt [] [] [1] [] [5, 6]).1 = .error .invalidLength ∧
    (Aead.decrypt [] [] [1] [] [5, 6]).2 = [5, 6] :=
  ⟨rfl, chacha20poly1305_decrypt_error_leaves_buffer [] [] [1] [] [5, 6]
    .invalidLength rfl⟩

/-- C9.  The public encrypt and decrypt functions take no
associated-data argument; the Poly1305 input they both build uses the
fixed empty AAD constant, so it is always the ciphertext padded with
zeros to a multiple of sixteen bytes followed by LE64(0) and LE64 of
the ciphertext length. -/
theorem chacha20poly1305_mac_input_has_empty_aad :
    (∀ C : List Nat,
      Aead.macData C = Aead.pad16 C ++ Aead.le64Bytes 0 ++ Aead.le64Bytes C.length) ∧
    (∀ key nonce plaintext : List Nat,
      (Aead.encrypt key nonce plaintext).2 =
        Aead.auth ((Aead.chachaBlock key 0 nonce).take 32)
          (Aead.macData (Aead.chachaXor key nonce 1 plaintext))) := by
  constructor
  · intro C
    have hnil : Aead.pad16 [] = [] := rfl
    simp only [Aead.macData, Aead.AAD, hnil, List.nil_append, List.length_nil]
  · intro key nonce plaintext
    rfl

namespace Argon2

/-- Rust u64 arithmetic modulus. -/
def U64M : Nat := 18446744073709551616

/-- u64 wrapping truncation. -/
def w64 (n : Nat) : Nat := n % U64M

/-- u64 rotate_right. -/
def rotr64 (x n : Nat) : Nat := (x >>> n) ||| ((x <<< (64 - n)) % U64M)

/-- u64::from_le_bytes of eight consecutive bytes of a byte list. -/
def le64At (l : List Nat) (o : Nat) : Nat :=
  l.getD o 0 + l.getD (o + 1) 0 * 256 + l.getD (o + 2) 0 * 65536 +
    l.getD (o + 3) 0 * 16777216 + l.getD (o + 4) 0 * 4294967296 +
    l.getD (o + 5) 0 * 1099511627776 + l.getD (o + 6) 0 * 281474976710656 +
    l.getD (o + 7) 0 * 72057594037927936

/-- A 1024-byte Argon2 block as its 128 little-endian 64-bit words
(src/derivation/argon2id/block.rs line 14). -/
def blockZero : List Nat := List.replicate 128 0

/-- Block::from_bytes (src/derivation/argon2id/block.rs lines 26-32). -/
def blockFromBytes (bytes : List Nat) : List Nat :=
  (List.range 128).map (fun i => le64At bytes (8 * i))

/-- Block::to_bytes (src/derivation/argon2id/block.rs lines 34-41). -/
def blockToBytes (words : List Nat) : List Nat :=
  (words.map Aead.le64Bytes).flatten

/-- The GB mixing function of Argon2
(src/derivation/argon2id/block.rs lines 167-193): the BLAKE2b quarter
round with the extra 2 * low32 * low32 product, all u64 arithmetic
wrapping. -/
def gb (a b c d : Nat) : Nat × Nat × Nat × Nat :=
  let a := w64 (w64 (a + b) + w64 (w64 (2 * (a % 4294967296)) * (b % 4294967296)))
  let d := rotr64 (d ^^^ a) 32
  let c := w64 (w64 (c + d) + w64 (w64 (2 * (c % 4294967296)) * (d % 4294967296)))
  let b := rotr64 (b ^^^ c) 24
  let a := w64 (w64 (a + b) + w64 (w64 (2 * (a % 4294967296)) * (b % 4294967296)))
  let d := rotr64 (d ^^^ a) 16
  let c := w64 (w64 (c + d) + w64 (w64 (2 * (c % 4294967296)) * (d % 4294967296)))
  let b := rotr64 (b ^^^ c) 63
  (a, b, c, d)

/-- The permutation P (src/derivation/argon2id/block.rs lines 201-211):
GB on the columns then the diagonals of a 4 x 4 matrix of words. -/
def permuteP (v : List Nat) : List Nat :=
  match v with
  | [w0, w1, w2, w3, w4, w5, w6, w7, w8, w9, w10, w11, w12, w13, w14, w15] =>
      let (w0, w4, w8, w12) := gb w0 w4 w8 w12
      let (w1, w5, w9, w13) := gb w1 w5 w9 w13
      let (w2, w6, w10, w14) := gb w2 w6 w10 w14
      let (w3, w7, w11, w15) := gb w3 w7 w11 w15
      let (w0, w5, w10, w15) := gb w0 w5 w10 w15
      let (w1, w6, w11, w12) := gb w1 w6 w11 w12
      let (w2, w7, w8, w13) := gb w2 w7 w8 w13
      let (w3, w4, w9, w14) := gb w3 w4 w9 w14
      [w0, w1, w2, w3, w4, w5, w6, w7, w8, w9, w10, w11, w12, w13, w14, w15]
  | _ => v

/-- The interleaved index set of the second compression pass
(src/derivation/argon2id/block.rs lines 70-87). -/
def columnIdx (i : Nat) : List Nat :=
  [2 * i, 2 * i + 1, 2 * i + 16, 2 * i + 17, 2 * i + 32, 2 * i + 33,
   2 * i + 48, 2 * i + 49, 2 * i + 64, 2 * i + 65, 2 * i + 80, 2 * i + 81,
   2 * i + 96, 2 * i + 97, 2 * i + 112, 2 * i + 113]

/-- Block::compress, the G function
(src/derivation/argon2id/block.rs lines 52-114):
G(X, Y) = P2(P1(X xor Y)) xor (X xor Y) with P applied first to eight
rows of sixteen consecutive words and then to eight interleaved column
groups. -/
def compress (x y : List Nat) : List Nat :=
  let r := List.zipWith Nat.xor x y
  let z := (List.range 8).foldl
    (fun z i => z.take (16 * i) ++ permuteP ((z.drop (16 * i)).take 16) ++
      z.drop (16 * i + 16)) r
  let z := (List.range 8).foldl
    (fun z i =>
      let idxs := columnIdx i
      let v := permuteP (idxs.map (fun k => z.getD k 0))
      ((idxs.zip v).foldl (fun z p => z.set p.1 p.2) z)) z
  List.zipWith Nat.xor z r

/-- Block::generate_address_block
(src/derivation/argon2id/block.rs lines 125-144):
addr = G(0, G(0, Z)) with Z holding the position parameters. -/
def generateAddressBlock (pass lane slice totalBlocks time counter : Nat) : List Nat :=
  let input := ((((((blockZero.set 0 pass).set 1 lane).set 2 slice).set 3
    totalBlocks).set 4 time).set 5 2).set 6 counter
  compress blockZero (compress blockZero input)

/-- Modelled from the spec: the BLAKE2b initialisation vector of
RFC 7693.  The blake2b and blake2b_long functions live in the hash
module of this repository whose source file is not in src/ (only their
callers are); they are modelled here from the specification, which
describes them as RFC 7693 with 12 rounds and the Argon2 H-prime
construction. -/
def blake2bIV : List Nat :=
  [0x6a09e667f3bcc908, 0xbb67ae8584caa73b, 0x3c6ef372fe94f82b,
   0xa54ff53a5f1d36f1, 0x510e527fade682d1, 0x9b05688c2b3e6c1f,
   0x1f83d9abfb41bd6b, 0x5be0cd19137e2179]

/-- Modelled from the spec: the BLAKE2b message schedule of RFC 7693. -/
def blake2bSigma : List (List Nat) :=
  [[0, 1, 2, 3, 4, 5, 6, 7, 8, 9, 10, 11, 12, 13, 14, 15],
   [14, 10, 4, 8, 9, 15, 13, 6, 1, 12, 0, 2, 11, 7, 5, 3],
   [11, 8, 12, 0, 5, 2, 15, 13, 10, 14, 3, 6, 7, 1, 9, 4],
   [7, 9, 3, 1, 13, 12, 11, 14, 2, 6, 5, 10, 4, 0, 15, 8],
   [9, 0, 5, 7, 2, 4, 10, 15, 14, 1, 11, 12, 6, 8, 3, 13],
   [2, 12, 6, 10, 0, 11, 8, 3, 4, 13, 7, 5, 15, 14, 1, 9],
   [12, 5, 1, 15, 14, 13, 4, 10, 0, 7, 6, 3, 9, 2, 8, 11],
   [13, 11, 7, 14, 12, 1, 3, 9, 5, 0, 15, 4, 8, 6, 2, 10],
   [6, 15, 14, 9, 11, 3, 0, 8, 12, 2, 13, 7, 1, 4, 10, 5],
   [10, 2, 8, 4, 7, 6, 1, 5, 15, 11, 9, 14, 3, 12, 13, 0]]

/-- Modelled from the spec: the BLAKE2b G mixing step of RFC 7693. -/
def bMix (v : List Nat) (a b c d x y : Nat) : List Nat :=
  let va := w64 (v.getD a 0 + v.getD b 0 + x)
  let vd := rotr64 (v.getD d 0 ^^^ va) 32
  let vc := w64 (v.getD c 0 + vd)
  let vb := rotr64 (v.getD b 0 ^^^ vc) 24
  let va := w64 (va + vb + y)
  let vd := rotr64 (vd ^^^ va) 16
  let vc := w64 (vc + vd)
  let vb := rotr64 (vb ^^^ vc) 63
  (((v.set a va).set b vb).set c vc).set d vd

/-- Modelled from the spec: the BLAKE2b compression function F of
RFC 7693 with 12 rounds. -/
def blake2bCompress (h m : List Nat) (t : Nat) (last : Bool) : List Nat :=
  let v := h ++ blake2bIV
  let v := v.set 12 (v.getD 12 0 ^^^ (t % U64M))
  let v := v.set 13 (v.getD 13 0 ^^^ (t / U64M % U64M))
  let v := if last then v.set 14 (v.getD 14 0 ^^^ (U64M - 1)) else v
  let v := (List.range 12).foldl
    (fun v r =>
      let s := blake2bSigma.getD (r % 10) []
      let v := bMix v 0 4 8 12 (m.getD (s.getD 0 0) 0) (m.getD (s.getD 1 0) 0)
      let v := bMix v 1 5 9 13 (m.getD (s.getD 2 0) 0) (m.getD (s.getD 3 0) 0)
      let v := bMix v 2 6 10 14 (m.getD (s.getD 4 0) 0) (m.getD (s.getD 5 0) 0)
      let v := bMix v 3 7 11 15 (m.getD (s.getD 6 0) 0) (m.getD (s.getD 7 0) 0)
      let v := bMix v 0 5 10 15 (m.getD (s.getD 8 0) 0) (m.getD (s.getD 9 0) 0)
      let v := bMix v 1 6 11 12 (m.getD (s.getD 10 0) 0) (m.getD (s.getD 11 0) 0)
      let v := bMix v 2 7 8 13 (m.getD (s.getD 12 0) 0) (m.getD (s.getD 13 0) 0)
      bMix v 3 4 9 14 (m.getD (s.getD 14 0) 0) (m.getD (s.getD 15 0) 0)) v
  (List.range 8).map (fun i => h.getD i 0 ^^^ v.getD i 0 ^^^ v.getD (i + 8) 0)

/-- Modelled from the spec: one-shot unkeyed BLAKE2b of RFC 7693 with
an output length of 1 to 64 bytes. -/
def blake2b (outLen : Nat) (msg : List Nat) : List Nat :=
  let h0 := blake2bIV.set 0 (blake2bIV.getD 0 0 ^^^ (0x01010000 ^^^ outLen))
  let nBlocks := if msg.length = 0 then 1 else (msg.length + 127) / 128
  let h := (List.range nBlocks).foldl
    (fun h i =>
      let chunk := (msg.drop (128 * i)).take 128
      if i + 1 = nBlocks then
        blake2bCompress h
          ((List.range 16).map (fun k =>
            le64At (chunk ++ List.replicate (128 - chunk.length) 0) (8 * k)))
          msg.length true
      else
        blake2bCompress h ((List.range 16).map (fun k => le64At chunk (8 * k)))
          (128 * (i + 1)) false) h0
  ((h.map Aead.le64Bytes).flatten).take outLen

/-- Modelled from the spec: blake2b_long, the Argon2 variable-length
hash H-prime.  If T is at most 64 the output is blake2b(T, LE32(T), X);
otherwise r = ceil(T / 32) - 2 chained 64-byte hashes contribute their
first 32 bytes each and a final hash of T - 32r bytes is appended. -/
def blake2bLong (t : Nat) (x : List Nat) : List Nat :=
  if t ≤ 64 then blake2b t (Aead.le32Bytes t ++ x)
  else
    let r := (t + 31) / 32 - 2
    let v1 := blake2b 64 (Aead.le32Bytes t ++ x)
    let st := (List.range (r - 1)).foldl
      (fun (st : List Nat × List Nat) _ =>
        let vi := blake2b 64 st.2
        (st.1 ++ vi.take 32, vi)) (v1.take 32, v1)
    st.1 ++ blake2b (t - 32 * r) st.2

/-- Argon2 parameters (src/derivation/argon2id/params.rs lines 20-33). -/
structure Argon2Params where
  memKib : Nat
  time : Nat
  lanes : Nat
  tagLen : Nat
  secret : Option (List Nat)
  associatedData : Option (List Nat)

/-- Parameter validation errors (src/derivation/argon2id/params.rs
lines 40-51). -/
inductive Argon2ParamError
  | memoryTooSmall
  | memoryNotMultipleOfLanes
  | tooFewLanes
  | tooFewPasses
  | tagLengthInvalid
deriving DecidableEq

/-- Argon2 errors (src/derivation/argon2id/core.rs lines 9-14). -/
inductive Argon2Error
  | invalidParams (kind : Argon2ParamError)
  | invalidSalt
deriving DecidableEq

/-- Argon2Params::validate (src/derivation/argon2id/params.rs lines
54-72).  The product 8 * lanes is a u32 multiplication and wraps, which
a release build exhibits for lanes of 2^29 and above. -/
def Argon2Params.validate (p : Argon2Params) : Except Argon2ParamError Unit :=
  if p.lanes < 1 then .error .tooFewLanes
  else if p.time < 1 then .error .tooFewPasses
  else if p.memKib < 8 * p.lanes % U32M then .error .memoryTooSmall
  else if p.tagLen < 4 ∨ p.tagLen > 1024 then .error .tagLengthInvalid
  else .ok ()

/-- fill_segment (src/derivation/argon2id/memory.rs lines 70-134).  The
loop state carries the memory, the current address block and the
address counter. -/
def fillSegment (L : MemoryLayout) (memory : List (List Nat))
    (pass slice lane time : Nat) : List (List Nat) :=
  let dataIndependent := pass = 0 ∧ slice < 2
  let init : List Nat × Nat :=
    if dataIndependent then
      (generateAddressBlock pass lane slice L.totalBlocks time 1, 1)
    else (blockZero, 0)
  let startIdx := if pass = 0 ∧ slice = 0 then 2 else 0
  (((List.range L.segmentLen).drop startIdx).foldl
    (fun (st : List (List Nat) × List Nat × Nat) i =>
      let memory := st.1
      let addrBlock := st.2.1
      let addressCounter := st.2.2
      let indexInLane := slice * L.segmentLen + i
      let prevIdx := if indexInLane = 0 then L.laneLen - 1 else indexInLane - 1
      let regen := dataIndependent ∧ i ≠ 0 ∧ i % 128 = 0
      let addressCounter := if regen then addressCounter + 1 else addressCounter
      let addrBlock :=
        if regen then
          generateAddressBlock pass lane slice L.totalBlocks time addressCounter
        else addrBlock
      let word :=
        if dataIndependent then addrBlock.getD (i % 128) 0
        else (memory.getD (L.idx lane prevIdx) blockZero).getD 0 0
      let j1 := word % U32M
      let j2 := (word >>> 32) % U32M
      let rp := computeReferencePosition pass slice lane i L j1 j2
      let cur := L.idx lane indexInLane
      let prev := L.idx lane prevIdx
      let reference := L.idx rp.1 rp.2
      let compressed := compress (memory.getD prev blockZero)
        (memory.getD reference blockZero)
      let memory :=
        if pass = 0 then memory.set cur compressed
        else memory.set cur
          (List.zipWith Nat.xor (memory.getD cur blockZero) compressed)
      (memory, addrBlock, addressCounter))
    (memory, init.1, init.2)).1

/-- MemoryLayout::fill (src/derivation/argon2id/memory.rs lines
54-62). -/
def fill (L : MemoryLayout) (memory : List (List Nat)) (time : Nat) :
    List (List Nat) :=
  (List.range time).foldl
    (fun memory pass =>
      (List.range 4).foldl
        (fun memory slice =>
          (List.range L.lanes).foldl
            (fun memory lane => fillSegment L memory pass slice lane time)
            memory)
        memory)
    memory

/-- init, the H0 computation (src/derivation/argon2id/boundary.rs lines
24-60): a 64-byte BLAKE2b over the length-prefixed concatenation of all
parameters, version 0x13, type 2. -/
def initH0 (password salt : List Nat) (params : Argon2Params)
    (memKibRounded : Nat) : List Nat :=
  let buf := Aead.le32Bytes params.lanes ++ Aead.le32Bytes (params.tagLen % U32M) ++
    Aead.le32Bytes memKibRounded ++ Aead.le32Bytes params.time ++
    Aead.le32Bytes 0x13 ++ Aead.le32Bytes 2 ++
    Aead.le32Bytes (password.length % U32M) ++ password ++
    Aead.le32Bytes (salt.length % U32M) ++ salt ++
    (match params.secret with
     | some sec => Aead.le32Bytes (sec.length % U32M) ++ sec
     | none => Aead.le32Bytes 0) ++
    (match params.associatedData with
     | some ad => Aead.le32Bytes (ad.length % U32M) ++ ad
     | none => Aead.le32Bytes 0)
  blake2b 64 buf

/-- finalize (src/derivation/argon2id/boundary.rs lines 70-79): XOR of
the last block of every lane, hashed to the tag length with H-prime. -/
def finalizeTag (memory : List (List Nat)) (lanes laneLen tagLen : Nat) : List Nat :=
  let finalBlock := (List.range lanes).foldl
    (fun fb lane =>
      List.zipWith Nat.xor fb (memory.getD ((lane + 1) * laneLen - 1) blockZero))
    blockZero
  blake2bLong tagLen (blockToBytes finalBlock)

/-- argon2id (src/derivation/argon2id/core.rs lines 39-84).  After the
two validation steps the whole computation is total and ends in ok.
The saturating m_min multiplication of the source is the explicit
min with the u32 maximum; the division that Rust would abort on when
4 * lanes wraps to zero is the total Lean division, a case no theorem
below relies on. -/
def argon2id (password salt : List Nat) (params : Argon2Params) :
    Except Argon2Error (List Nat) :=
  match params.validate with
  | .error e => .error (.invalidParams e)
  | .ok _ =>
    if salt.length < 8 then .error .invalidSalt
    else
      let lanes := params.lanes
      let syncPoints := 4
      let mMin := min (8 * lanes) (U32M - 1)
      let mPrime0 := max params.memKib mMin
      let mPrime := mPrime0 / (syncPoints * lanes % U32M) * (syncPoints * lanes % U32M)
      let layout := MemoryLayout.ofParams mPrime lanes
      let memory := List.replicate layout.totalBlocks blockZero
      let h0 := initH0 password salt params mPrime
      let memory := (List.range lanes).foldl
        (fun memory i =>
          (List.range 2).foldl
            (fun memory j =>
              let input := h0 ++ Aead.le32Bytes j ++ Aead.le32Bytes i
              memory.set (layout.idx i j) (blockFromBytes (blake2bLong 1024 input)))
            memory)
        memory
      let memory := fill layout memory params.time
      .ok (finalizeTag memory lanes layout.laneLen params.tagLen)

end Argon2

/-- C6 (amended).  For parameter sets whose lane count stays below
2^29 - so that the u32 product 8 * lanes in validate does not wrap -
argon2id returns an error exactly under the claimed conditions and
with the claimed kinds, checked in the order of the source: TooFewLanes
when lanes is zero, TooFewPasses when time is zero, MemoryTooSmall when
mem_kib is below 8 * lanes, TagLengthInvalid when tag_len is outside
4..=1024, InvalidSalt when the salt is shorter than 8 bytes, and ok on
every other input; the MemoryNotMultipleOfLanes kind is never
returned. -/
theorem argon2id_error_conditions (password salt : List Nat)
    (p : Argon2.Argon2Params) (hlanes : p.lanes < 2 ^ 29) :
    ((p.lanes = 0 →
        Argon2.argon2id password salt p =
          .error (.invalidParams .tooFewLanes)) ∧
     (0 < p.lanes → p.time = 0 →
        Argon2.argon2id password salt p =
          .error (.invalidParams .tooFewPasses)) ∧
     (0 < p.lanes → 0 < p.time → p.memKib < 8 * p.lanes →
        Argon2.argon2id password salt p =
          .error (.invalidParams .memoryTooSmall)) ∧
     (0 < p.lanes → 0 < p.time → 8 * p.lanes ≤ p.memKib →
        (p.tagLen < 4 ∨ 1024 < p.tagLen) →
        Argon2.argon2id password salt p =
          .error (.invalidParams .tagLengthInvalid)) ∧
     (0 < p.lanes → 0 < p.time → 8 * p.lanes ≤ p.memKib → 4 ≤ p.tagLen →
        p.tagLen ≤ 1024 → salt.length < 8 →
        Argon2.argon2id password salt p = .error .invalidSalt) ∧
     (0 < p.lanes → 0 < p.time → 8 * p.lanes ≤ p.memKib → 4 ≤ p.tagLen →
        p.tagLen ≤ 1024 → 8 ≤ salt.length →
        ∃ tag, Argon2.argon2id password salt p = .ok tag)) ∧
    Argon2.argon2id password salt p ≠
      .error (.invalidParams .memoryNotMultipleOfLanes) := by
  have hU : Argon2.U32M = 2 ^ 32 := by decide
  have hm : 8 * p.lanes % Argon2.U32M = 8 * p.lanes :=
    Nat.mod_eq_of_lt (by omega)
  refine ⟨⟨?_, ?_, ?_, ?_, ?_, ?_⟩, ?_⟩
  · intro h1
    simp only [Argon2.argon2id, Argon2.Argon2Params.validate, hm]
    rw [if_pos (by omega)]
  · intro h1 h2
    simp only [Argon2.argon2id, Argon2.Argon2Params.validate, hm]
    rw [if_neg (by omega), if_pos (by omega)]
  · intro h1 h2 h3
    simp only [Argon2.argon2id, Argon2.Argon2Params.validate, hm]
    rw [if_neg (by omega), if_neg (by omega), if_pos (by omega)]
  · intro h1 h2 h3 h4
    simp only [Argon2.argon2id, Argon2.Argon2Params.validate, hm]
    rw [if_neg (by omega), if_neg (by omega), if_neg (by omega), if_pos (by omega)]
  · intro h1 h2 h3 h4 h5 h6
    simp only [Argon2.argon2id, Argon2.Argon2Params.validate, hm]
    rw [if_neg (by omega), if_neg (by omega), if_neg (by omega), if_neg (by omega),
      if_pos (by omega)]
  · intro h1 h2 h3 h4 h5 h6
    simp only [Argon2.argon2id, Argon2.Argon2Params.validate, hm]
    rw [if_neg (by omega), if_neg (by omega), if_neg (by omega), if_neg (by omega),
      if_neg (by omega)]
    exact ⟨_, rfl⟩
  · intro heq
    simp only [Argon2.argon2id, Argon2.Argon2Params.validate, hm] at heq
    by_cases h1 : p.lanes < 1
    · rw [if_pos h1] at heq
      simp at heq
    · rw [if_neg h1] at heq
      by_cases h2 : p.time < 1
      · rw [if_pos h2] at heq
        simp at heq
      · rw [if_neg h2] at heq
        by_cases h3 : p.memKib < 8 * p.lanes
        · rw [if_pos h3] at heq
          simp at heq
        · rw [if_neg h3] at heq
          by_cases h4 : p.tagLen < 4 ∨ p.tagLen > 1024
          · rw [if_pos h4] at heq
            simp at heq
          · rw [if_neg h4] at heq
            by_cases h5 : salt.length < 8
            · rw [if_pos h5] at heq
              simp at heq
            · rw [if_neg h5] at heq
              simp at heq

/-- Witness for C6 on a valid concrete parameter set. -/
theorem argon2id_error_conditions_witness :
    ∃ tag,
      Argon2.argon2id [] (List.replicate 8 1)
        ⟨8, 1, 1, 32, none, none⟩ = .ok tag :=
  (argon2id_error_conditions [] (List.replicate 8 1) ⟨8, 1, 1, 32, none, none⟩
      (by decide)).1.2.2.2.2.2
    (by decide) (by decide) (by decide) (by decide) (by decide) (by decide)

/-- Counterexample for C6 as originally stated.  At lanes = 2^29 the
u32 product 8 * lanes wraps to zero in validate, so the MemoryTooSmall
check compares against zero and passes even though mem_kib = 0 is far
below the mathematical product 8 * lanes = 2^32: the claim demands an
InvalidParams(MemoryTooSmall) error, yet the function returns ok. -/
theorem argon2id_memory_check_wraps_counterexample :
    (Argon2.Argon2Params.mk 0 1 (2 ^ 29) 32 none none).memKib <
      8 * (Argon2.Argon2Params.mk 0 1 (2 ^ 29) 32 none none).lanes ∧
    ∃ tag,
      Argon2.argon2id [] (List.replicate 8 0)
        (Argon2.Argon2Params.mk 0 1 (2 ^ 29) 32 none none) = .ok tag := by
  constructor
  · decide
  · simp only [Argon2.argon2id, Argon2.Argon2Params.validate]
    rw [if_neg (by decide), if_neg (by decide), if_neg (by decide),
      if_neg (by decide), if_neg (by decide)]
    exact ⟨_, rfl⟩


/-- Counterexample for C5 as originally stated.  The parameters
mem_kib = 2800000000, lanes = 1 pass validate and give the layout with
lane_len = 2800000000 > 2^31 and segment_len = 700000000.  At pass 1,
slice 2, index_in_segment 600000000, J1 = J2 = 0 — a position
satisfying every hypothesis of the corrected theorem except the 2^31
bound — the reference area size is W = 2699999999 and the start offset
is 2100000000, so the spec formula gives
(2100000000 + 2699999998) mod 2800000000 = 1999999998, but the code's
u32 sum wraps: (4799999998 mod 2^32) mod 2800000000 = 505032702. -/
theorem argon2_reference_position_wraps_counterexample :
    Argon2.MemoryLayout.ofParams 2800000000 1 =
      ⟨1, 2800000000, 700000000, 2800000000⟩ ∧
    (Argon2.Argon2Params.mk 2800000000 1 1 32 none none).validate = .ok () ∧
    Argon2.computeReferencePosition 1 2 0 600000000
      ⟨1, 2800000000, 700000000, 2800000000⟩ 0 0 = (0, 505032702) ∧
    Argon2.referencePositionSpec 1 2 0 600000000
      ⟨1, 2800000000, 700000000, 2800000000⟩ 0 0 = (0, 1999999998) := by
  exact ⟨rfl, rfl, rfl, rfl⟩

namespace Sss

/-- The doubling step of the GF(256) multiplication loop
(src/recovery/sss/field.rs lines 186-193): a u8 left shift by one with
a conditional reduction by the AES polynomial 0x1B when the high bit
was set. -/
def xtime (a : Nat) : Nat :=
  let carry := a &&& 0x80
  let s := a * 2 % 256
  if carry ≠ 0 then s ^^^ 0x1B else s

/-- The GF(256) multiplication loop
(src/recovery/sss/field.rs lines 179-199): while the right operand is
nonzero, conditionally accumulate the left operand, double it with
xtime, and halve the right operand.  A u8 right operand is exhausted
after at most eight halvings, so a fuel of eight runs the loop in
full. -/
def gfMulGo : Nat → Nat → Nat → Nat → Nat
  | 0, _, _, res => res
  | fuel + 1, a, b, res =>
      if b = 0 then res
      else gfMulGo fuel (xtime a) (b / 2) (if b % 2 = 1 then res ^^^ a else res)

/-- Mul for FieldElement (src/recovery/sss/field.rs lines 176-200). -/
def gfMul (a b : Nat) : Nat := gfMulGo 8 a b 0

theorem mul2_xor (x y : Nat) : (x ^^^ y) * 2 = x * 2 ^^^ y * 2 := by
  have h : ∀ z : Nat, z * 2 = z <<< 1 := fun z => by
    rw [Nat.shiftLeft_eq, pow_one]
  rw [h, h, h]
  apply Nat.eq_of_testBit_eq
  intro i
  simp only [Nat.testBit_shiftLeft, Nat.testBit_xor]
  cases decide (1 ≤ i) <;> simp

theorem mod256_xor (a b : Nat) : (a ^^^ b) % 256 = a % 256 ^^^ b % 256 := by
  have h256 : (256 : Nat) = 2 ^ 8 := by norm_num
  rw [h256]
  apply Nat.eq_of_testBit_eq
  intro i
  simp only [Nat.testBit_mod_two_pow, Nat.testBit_xor]
  cases decide (i < 8) <;> simp

theorem and128_cases (x : Nat) : x &&& 128 = 0 ∨ x &&& 128 = 128 := by
  have h : (128 : Nat) = 2 ^ 7 := by norm_num
  rw [h, Nat.and_two_pow]
  cases x.testBit 7 <;> simp

theorem xorLeftComm (a b c : Nat) : a ^^^ (b ^^^ c) = b ^^^ (a ^^^ c) := by
  rw [← Nat.xor_assoc, Nat.xor_comm a b, Nat.xor_assoc]

theorem xorCancelLeft (a b : Nat) : a ^^^ (a ^^^ b) = b := by
  rw [← Nat.xor_assoc, Nat.xor_self, Nat.zero_xor]

theorem xtime_xor (x y : Nat) : xtime (x ^^^ y) = xtime x ^^^ xtime y := by
  have hM : (x ^^^ y) * 2 % 256 = (x * 2 % 256) ^^^ (y * 2 % 256) := by
    rw [mul2_xor, mod256_xor]
  have hxy : (x ^^^ y) &&& 128 = (x &&& 128) ^^^ (y &&& 128) :=
    Nat.and_xor_distrib_right
  unfold xtime
  rcases and128_cases x with hx | hx <;> rcases and128_cases y with hy | hy <;>
    rw [hx, hy] at hxy <;>
    simp only [hx, hy, hxy, Nat.xor_self, Nat.zero_xor, Nat.xor_zero,
      ne_eq, not_true_eq_false, not_false_eq_true, if_true, if_false,
      reduceIte, hM] <;>
    simp [Nat.xor_assoc, Nat.xor_comm, xorLeftComm, xorCancelLeft,
      Nat.xor_self, Nat.xor_zero]

theorem gfMulGo_acc (fuel : Nat) :
    ∀ (a b res : Nat), gfMulGo fuel a b res = res ^^^ gfMulGo fuel a b 0 := by
  induction fuel with
  | zero => intro a b res; simp [gfMulGo]
  | succ fuel ih =>
      intro a b res
      by_cases hb : b = 0
      · simp [gfMulGo, hb]
      · rw [gfMulGo, gfMulGo, if_neg hb, if_neg hb,
          ih (xtime a) (b / 2) (if b % 2 = 1 then res ^^^ a else res),
          ih (xtime a) (b / 2) (if b % 2 = 1 then 0 ^^^ a else 0)]
        by_cases hb2 : b % 2 = 1 <;>
          simp [hb2, Nat.xor_assoc]

theorem gfMulGo_xor_left (fuel : Nat) :
    ∀ (x y b : Nat),
      gfMulGo fuel (x ^^^ y) b 0 = gfMulGo fuel x b 0 ^^^ gfMulGo fuel y b 0 := by
  induction fuel with
  | zero => intro x y b; simp [gfMulGo]
  | succ fuel ih =>
      intro x y b
      by_cases hb : b = 0
      · simp [gfMulGo, hb]
      · rw [gfMulGo, gfMulGo, gfMulGo, if_neg hb, if_neg hb, if_neg hb,
          gfMulGo_acc fuel (xtime (x ^^^ y)) (b / 2)
            (if b % 2 = 1 then 0 ^^^ (x ^^^ y) else 0),
          gfMulGo_acc fuel (xtime x) (b / 2) (if b % 2 = 1 then 0 ^^^ x else 0),
          gfMulGo_acc fuel (xtime y) (b / 2) (if b % 2 = 1 then 0 ^^^ y else 0),
          xtime_xor, ih]
        by_cases hb2 : b % 2 = 1 <;>
          simp [hb2, Nat.xor_assoc, Nat.xor_comm, xorLeftComm, xorCancelLeft]

theorem gfMul_xor_left (x y b : Nat) :
    gfMul (x ^^^ y) b = gfMul x b ^^^ gfMul y b :=
  gfMulGo_xor_left 8 x y b

theorem mod2_xor (b c : Nat) : (b ^^^ c) % 2 = b % 2 ^^^ c % 2 := by
  rw [← Nat.and_one_is_mod, ← Nat.and_one_is_mod, ← Nat.and_one_is_mod]
  exact Nat.and_xor_distrib_right

theorem gfMulGo_xor_right (fuel : Nat) :
    ∀ (a b c : Nat),
      gfMulGo fuel a (b ^^^ c) 0 = gfMulGo fuel a b 0 ^^^ gfMulGo fuel a c 0 := by
  induction fuel with
  | zero => intro a b c; simp [gfMulGo]
  | succ fuel ih =>
      intro a b c
      by_cases hbc : b ^^^ c = 0
      · have hb : b = c := Nat.xor_eq_zero.mp hbc
        rw [hbc, hb]
        simp [gfMulGo, Nat.xor_self]
      · by_cases hb : b = 0
        · subst hb
          simp only [Nat.zero_xor] at hbc ⊢
          have h0 : gfMulGo (fuel + 1) a 0 0 = 0 := by rw [gfMulGo]; simp
          rw [h0, Nat.zero_xor]
        · by_cases hc : c = 0
          · subst hc
            simp only [Nat.xor_zero] at hbc ⊢
            have h0 : gfMulGo (fuel + 1) a 0 0 = 0 := by rw [gfMulGo]; simp
            rw [h0, Nat.xor_zero]
          · rw [gfMulGo, gfMulGo, gfMulGo, if_neg hbc, if_neg hb, if_neg hc,
              gfMulGo_acc fuel (xtime a) ((b ^^^ c) / 2)
                (if (b ^^^ c) % 2 = 1 then 0 ^^^ a else 0),
              gfMulGo_acc fuel (xtime a) (b / 2) (if b % 2 = 1 then 0 ^^^ a else 0),
              gfMulGo_acc fuel (xtime a) (c / 2) (if c % 2 = 1 then 0 ^^^ a else 0)]
            have hdiv : (b ^^^ c) / 2 = b / 2 ^^^ c / 2 := Nat.xor_div_two
            have hmod : (b ^^^ c) % 2 = b % 2 ^^^ c % 2 := mod2_xor b c
            rw [hdiv, ih (xtime a) (b / 2) (c / 2)]
            rcases Nat.mod_two_eq_zero_or_one b with hb2 | hb2 <;>
              rcases Nat.mod_two_eq_zero_or_one c with hc2 | hc2 <;>
              simp [hb2, hc2, hmod, Nat.xor_assoc, Nat.xor_comm, xorLeftComm,
                xorCancelLeft]

theorem gfMul_xor_right (a b c : Nat) :
    gfMul a (b ^^^ c) = gfMul a b ^^^ gfMul a c :=
  gfMulGo_xor_right 8 a b c

theorem gfMul_zero_left (b : Nat) : gfMul 0 b = 0 := by
  have h := gfMul_xor_left 0 0 b
  simp only [Nat.xor_self] at h
  omega

theorem gfMul_zero_right (a : Nat) : gfMul a 0 = 0 := by
  simp [gfMul, gfMulGo]

theorem xtime_lt (a : Nat) (h : a < 256) : xtime a < 256 := by
  unfold xtime
  dsimp only
  split
  · have h1 : a * 2 % 256 < 256 := Nat.mod_lt _ (by omega)
    have h2 : (27 : Nat) < 256 := by omega
    have h256 : (256 : Nat) = 2 ^ 8 := by norm_num
    rw [h256] at h1 ⊢
    exact Nat.xor_lt_two_pow h1 (by omega)
  · exact Nat.mod_lt _ (by omega)

theorem gfMulGo_lt (fuel : Nat) :
    ∀ (a b res : Nat), a < 256 → res < 256 → gfMulGo fuel a b res < 256 := by
  induction fuel with
  | zero => intro a b res _ hres; simpa [gfMulGo] using hres
  | succ fuel ih =>
      intro a b res ha hres
      rw [gfMulGo]
      split
      · exact hres
      · refine ih _ _ _ (xtime_lt a ha) ?_
        split
        · have h256 : (256 : Nat) = 2 ^ 8 := by norm_num
          rw [h256]
          exact Nat.xor_lt_two_pow (by omega) (by omega)
        · exact hres

theorem gfMul_lt (a b : Nat) (ha : a < 256) : gfMul a b < 256 :=
  gfMulGo_lt 8 a b 0 ha (by omega)

theorem and_two_pow_cases (x n : Nat) : x &&& 2 ^ n = 0 ∨ x &&& 2 ^ n = 2 ^ n := by
  rw [Nat.and_two_pow]
  cases x.testBit n <;> simp

theorem byteSplit (n a : Nat) (h : a < 2 ^ (n + 1)) :
    a = (a &&& 2 ^ n) ^^^ (a % 2 ^ n) := by
  apply Nat.eq_of_testBit_eq
  intro i
  simp only [Nat.testBit_xor, Nat.testBit_and, Nat.testBit_mod_two_pow,
    Nat.testBit_two_pow]
  rcases lt_trichotomy i n with hi | hi | hi
  · simp [Nat.ne_of_gt hi, hi]
  · subst hi
    have : ¬ i < i := lt_irrefl i
    simp [this]
  · have h1 : a.testBit i = false := by
      apply Nat.testBit_lt_two_pow
      calc a < 2 ^ (n + 1) := h
        _ ≤ 2 ^ i := Nat.pow_le_pow_right (by omega) (by omega)
    simp [h1, Nat.ne_of_lt hi, Nat.lt_asymm hi]

/-- Every property of bytes that holds for zero and the eight powers of
two, and is preserved by XOR, holds for every byte. -/
theorem byteInduction (P : Nat → Prop) (h0 : P 0)
    (hp : ∀ i, i < 8 → P (2 ^ i))
    (hx : ∀ x y, P x → P y → P (x ^^^ y)) :
    ∀ a, a < 256 → P a := by
  have main : ∀ n, n ≤ 8 → ∀ a, a < 2 ^ n → P a := by
    intro n
    induction n with
    | zero =>
        intro _ a ha
        have : a = 0 := by simpa using Nat.lt_one_iff.mp (by simpa using ha)
        simpa [this] using h0
    | succ n ih =>
        intro hn a ha
        have hsplit := byteSplit n a ha
        have hmod : a % 2 ^ n < 2 ^ n := Nat.mod_lt _ (Nat.pos_pow_of_pos n (by omega))
        have hlow : P (a % 2 ^ n) := ih (by omega) _ hmod
        have hhigh : P (a &&& 2 ^ n) := by
          rcases and_two_pow_cases a n with hc | hc
          · rw [hc]; exact h0
          · rw [hc]; exact hp n (by omega)
        have := hx _ _ hhigh hlow
        rw [← hsplit] at this
        exact this
  intro a ha
  exact main 8 le_rfl a (by norm_num; omega)

set_option maxRecDepth 10000 in
theorem gfMul_one_basis : ∀ i, i < 8 → gfMul (2 ^ i) 1 = 2 ^ i := by decide

set_option maxRecDepth 10000 in
theorem gfMul_one_left_basis : ∀ j, j < 8 → gfMul 1 (2 ^ j) = 2 ^ j := by decide

set_option maxRecDepth 10000 in
theorem gfMul_comm_basis :
    ∀ i, i < 8 → ∀ j, j < 8 → gfMul (2 ^ i) (2 ^ j) = gfMul (2 ^ j) (2 ^ i) := by
  decide

set_option maxRecDepth 10000 in
set_option maxHeartbeats 1000000 in
theorem gfMul_assoc_basis :
    ∀ i, i < 8 → ∀ j, j < 8 → ∀ k, k < 8 →
      gfMul (gfMul (2 ^ i) (2 ^ j)) (2 ^ k) =
        gfMul (2 ^ i) (gfMul (2 ^ j) (2 ^ k)) := by
  decide

theorem gfMul_one (a : Nat) (ha : a < 256) : gfMul a 1 = a := by
  refine byteInduction (fun a => gfMul a 1 = a) ?_ ?_ ?_ a ha
  · exact gfMul_zero_left 1
  · exact gfMul_one_basis
  · intro x y hxe hye
    rw [gfMul_xor_left, hxe, hye]

theorem gfMul_one_left (b : Nat) (hb : b < 256) : gfMul 1 b = b := by
  refine byteInduction (fun b => gfMul 1 b = b) ?_ ?_ ?_ b hb
  · exact gfMul_zero_right 1
  · exact gfMul_one_left_basis
  · intro x y hxe hye
    rw [gfMul_xor_right, hxe, hye]

theorem gfMul_comm_pow (a : Nat) (ha : a < 256) :
    ∀ j, j < 8 → gfMul a (2 ^ j) = gfMul (2 ^ j) a := by
  refine byteInduction (fun a => ∀ j, j < 8 → gfMul a (2 ^ j) = gfMul (2 ^ j) a)
    ?_ ?_ ?_ a ha
  · intro j _
    rw [gfMul_zero_left, gfMul_zero_right]
  · intro i hi j hj
    exact gfMul_comm_basis i hi j hj
  · intro x y hxe hye j hj
    rw [gfMul_xor_left, gfMul_xor_right, hxe j hj, hye j hj]

theorem gfMul_comm (a b : Nat) (ha : a < 256) (hb : b < 256) :
    gfMul a b = gfMul b a := by
  refine byteInduction (fun b => ∀ x, x < 256 → gfMul x b = gfMul b x)
    ?_ ?_ ?_ b hb a ha
  · intro x _
    rw [gfMul_zero_left, gfMul_zero_right]
  · intro j hj x hxlt
    exact gfMul_comm_pow x hxlt j hj
  · intro u v hue hve x hxlt
    rw [gfMul_xor_right, gfMul_xor_left, hue x hxlt, hve x hxlt]

theorem gfMul_assoc_pow2 (a : Nat) (ha : a < 256) :
    ∀ j, j < 8 → ∀ k, k < 8 →
      gfMul (gfMul a (2 ^ j)) (2 ^ k) = gfMul a (gfMul (2 ^ j) (2 ^ k)) := by
  refine byteInduction
    (fun a => ∀ j, j < 8 → ∀ k, k < 8 →
      gfMul (gfMul a (2 ^ j)) (2 ^ k) = gfMul a (gfMul (2 ^ j) (2 ^ k)))
    ?_ ?_ ?_ a ha
  · intro j _ k _
    rw [gfMul_zero_left, gfMul_zero_left, gfMul_zero_left]
  · intro i hi j hj k hk
    exact gfMul_assoc_basis i hi j hj k hk
  · intro x y hxe hye j hj k hk
    rw [gfMul_xor_left, gfMul_xor_left, gfMul_xor_left, hxe j hj k hk, hye j hj k hk]

theorem gfMul_assoc_pow1 (b : Nat) (hb : b < 256) :
    ∀ a, a < 256 → ∀ k, k < 8 →
      gfMul (gfMul a b) (2 ^ k) = gfMul a (gfMul b (2 ^ k)) := by
  refine byteInduction
    (fun b => ∀ a, a < 256 → ∀ k, k < 8 →
      gfMul (gfMul a b) (2 ^ k) = gfMul a (gfMul b (2 ^ k)))
    ?_ ?_ ?_ b hb
  · intro a _ k _
    simp [gfMul_zero_left, gfMul_zero_right]
  · intro j hj a halt k hk
    exact gfMul_assoc_pow2 a halt j hj k hk
  · intro u v hue hve a halt k hk
    rw [gfMul_xor_right, gfMul_xor_left, gfMul_xor_left, gfMul_xor_right,
      hue a halt k hk, hve a halt k hk]

theorem gfMul_assoc (a b c : Nat) (ha : a < 256) (hb : b < 256) (hc : c < 256) :
    gfMul (gfMul a b) c = gfMul a (gfMul b c) := by
  refine byteInduction
    (fun c => ∀ a, a < 256 → ∀ b, b < 256 →
      gfMul (gfMul a b) c = gfMul a (gfMul b c))
    ?_ ?_ ?_ c hc a ha b hb
  · intro a _ b _
    rw [gfMul_zero_right, gfMul_zero_right, gfMul_zero_right]
  · intro k hk a halt b hblt
    exact gfMul_assoc_pow1 b hblt a halt k hk
  · intro u v hue hve a halt b hblt
    rw [gfMul_xor_right, gfMul_xor_right, gfMul_xor_right,
      hue a halt b hblt, hve a halt b hblt]

/-- Powers of the generator 3 of the multiplicative group of the
field. -/
def powG : Nat → Nat
  | 0 => 1
  | m + 1 => gfMul (powG m) 3

/-- The list of successive multiples of the generator starting at a
given value. -/
def powListG : Nat → Nat → List Nat
  | 0, _ => []
  | k + 1, cur => cur :: powListG k (gfMul cur 3)

set_option maxRecDepth 10000 in
set_option maxHeartbeats 2000000 in
theorem powListG_nodup : (powListG 255 1).Nodup ∧ 0 ∉ powListG 255 1 := by decide

theorem powListG_eq_map (k : Nat) :
    ∀ s, powListG k (powG s) = (List.range k).map (fun t => powG (s + t)) := by
  induction k with
  | zero => intro s; rfl
  | succ k ih =>
      intro s
      have hstep : gfMul (powG s) 3 = powG (s + 1) := rfl
      rw [powListG, hstep, ih (s + 1), List.range_succ_eq_map]
      simp only [List.map_cons, List.map_map, Nat.add_zero, List.cons.injEq]
      refine ⟨by trivial, ?_⟩
      apply List.map_congr_left
      intro t _
      simp only [Function.comp_apply]
      congr 1
      omega

theorem powG_lt (m : Nat) : powG m < 256 := by
  induction m with
  | zero => simp [powG]
  | succ m ih => exact gfMul_lt _ _ ih

theorem powG_add (m : Nat) : ∀ k, gfMul (powG m) (powG k) = powG (m + k) := by
  intro k
  induction k with
  | zero =>
      show gfMul (powG m) 1 = powG m
      exact gfMul_one _ (powG_lt m)
  | succ k ih =>
      show gfMul (powG m) (gfMul (powG k) 3) = powG (m + k + 1)
      rw [← gfMul_assoc _ _ _ (powG_lt m) (powG_lt k) (by omega), ih]
      rfl

set_option maxRecDepth 10000 in
theorem powG_255 : powG 255 = 1 := by decide

theorem powG_mul255 (q : Nat) : powG (255 * q) = 1 := by
  induction q with
  | zero => rfl
  | succ q ih =>
      have : 255 * (q + 1) = 255 * q + 255 := by ring
      rw [this, ← powG_add, ih, powG_255]
      exact gfMul_one_left 1 (by omega)

theorem powG_mod (m : Nat) : powG m = powG (m % 255) := by
  conv_lhs => rw [show m = 255 * (m / 255) + m % 255 from (Nat.div_add_mod m 255).symm]
  rw [← powG_add, powG_mul255]
  exact gfMul_one_left _ (powG_lt _)

theorem powListG_full : powListG 255 1 = (List.range 255).map powG := by
  have h := powListG_eq_map 255 0
  simpa using h

theorem mem_powListG_of_lt (m : Nat) (hm : m < 255) : powG m ∈ powListG 255 1 := by
  rw [powListG_full]
  exact List.mem_map.mpr ⟨m, List.mem_range.mpr hm, rfl⟩

theorem powListG_length : (powListG 255 1).length = 255 := by
  rw [powListG_full]
  simp

theorem mem_powListG_lt (a : Nat) (ha : a ∈ powListG 255 1) : a < 256 := by
  rw [powListG_full] at ha
  obtain ⟨m, _, rfl⟩ := List.mem_map.mp ha
  exact powG_lt m

/-- Every nonzero byte is a power of the generator: the 255 powers are
distinct nonzero bytes, so they exhaust the nonzero bytes. -/
theorem nonzero_mem_powListG (a : Nat) (ha : a < 256) (ha0 : a ≠ 0) :
    a ∈ powListG 255 1 := by
  classical
  have hnodup := powListG_nodup.1
  have h0 := powListG_nodup.2
  set L := powListG 255 1 with hL
  have hsub : L.toFinset ⊆ (Finset.range 256).erase 0 := by
    intro x hx
    rw [List.mem_toFinset] at hx
    refine Finset.mem_erase.mpr ⟨?_, Finset.mem_range.mpr (mem_powListG_lt x hx)⟩
    intro hx0
    subst hx0
    exact h0 hx
  have hcardL : L.toFinset.card = 255 := by
    rw [List.toFinset_card_of_nodup hnodup, powListG_length]
  have hcardS : ((Finset.range 256).erase 0).card = 255 := by
    rw [Finset.card_erase_of_mem (Finset.mem_range.mpr (by omega)), Finset.card_range]
  have heq : L.toFinset = (Finset.range 256).erase 0 :=
    Finset.eq_of_subset_of_card_le hsub (by omega)
  have hmem : a ∈ L.toFinset := by
    rw [heq]
    exact Finset.mem_erase.mpr ⟨ha0, Finset.mem_range.mpr ha⟩
  exact List.mem_toFinset.mp hmem

theorem exists_powG (a : Nat) (ha : a < 256) (ha0 : a ≠ 0) :
    ∃ m, m < 255 ∧ a = powG m := by
  have h := nonzero_mem_powListG a ha ha0
  rw [powListG_full] at h
  obtain ⟨m, hm, hma⟩ := List.mem_map.mp h
  exact ⟨m, List.mem_range.mp hm, hma.symm⟩

/-- GF(256) has no zero divisors. -/
theorem gfMul_ne_zero (a b : Nat) (ha : a < 256) (hb : b < 256)
    (ha0 : a ≠ 0) (hb0 : b ≠ 0) : gfMul a b ≠ 0 := by
  obtain ⟨m, _, rfl⟩ := exists_powG a ha ha0
  obtain ⟨k, _, rfl⟩ := exists_powG b hb hb0
  rw [powG_add, powG_mod]
  intro hz
  have hmem := mem_powListG_of_lt ((m + k) % 255) (Nat.mod_lt _ (by omega))
  rw [hz] at hmem
  exact powListG_nodup.2 hmem

theorem xor_lt_256 (a b : Nat) (ha : a < 256) (hb : b < 256) : a ^^^ b < 256 := by
  have h256 : (256 : Nat) = 2 ^ 8 := by norm_num
  rw [h256] at ha hb ⊢
  exact Nat.xor_lt_two_pow ha hb

/-- An element of GF(256) (src/recovery/sss/field.rs line 45): a u8
wrapped in a struct. -/
structure FieldElement where
  val : Fin 256
deriving DecidableEq

/-- FieldElement::from (src/recovery/sss/field.rs lines 58-60): a
plain wrapper around the byte. -/
def fromByte (n : Nat) : FieldElement := ⟨⟨n % 256, Nat.mod_lt _ (by omega)⟩⟩

/-- FieldElement::into_number (src/recovery/sss/field.rs lines 67-69). -/
def intoNumber (a : FieldElement) : Nat := a.val.val

/-- Add for FieldElement (src/recovery/sss/field.rs lines 163-170):
bitwise XOR. -/
def fadd (a b : FieldElement) : FieldElement :=
  ⟨⟨a.val.val ^^^ b.val.val, xor_lt_256 _ _ a.val.isLt b.val.isLt⟩⟩

/-- Mul for FieldElement (src/recovery/sss/field.rs lines 176-200). -/
def fmul (a b : FieldElement) : FieldElement :=
  ⟨⟨gfMul a.val.val b.val.val, gfMul_lt _ _ a.val.isLt⟩⟩

theorem FieldElement.eq_of_val {a b : FieldElement} (h : a.val.val = b.val.val) :
    a = b := by
  cases a
  cases b
  simp only [FieldElement.mk.injEq]
  exact Fin.ext h

instance : Zero FieldElement := ⟨⟨⟨0, by omega⟩⟩⟩

instance : One FieldElement := ⟨⟨⟨1, by omega⟩⟩⟩

instance : Add FieldElement := ⟨fadd⟩

instance : Mul FieldElement := ⟨fmul⟩

instance : Neg FieldElement := ⟨fun a => a⟩

instance : CommRing FieldElement where
  add := fadd
  nsmul := nsmulRec
  zsmul := zsmulRec
  zero := ⟨⟨0, by omega⟩⟩
  neg := fun a => a
  mul := fmul
  one := ⟨⟨1, by omega⟩⟩
  add_assoc a b c := by
    apply FieldElement.eq_of_val
    exact Nat.xor_assoc _ _ _
  zero_add a := by
    apply FieldElement.eq_of_val
    exact Nat.zero_xor _
  add_zero a := by
    apply FieldElement.eq_of_val
    exact Nat.xor_zero _
  add_comm a b := by
    apply FieldElement.eq_of_val
    exact Nat.xor_comm _ _
  neg_add_cancel a := by
    apply FieldElement.eq_of_val
    exact Nat.xor_self _
  mul_assoc a b c := by
    apply FieldElement.eq_of_val
    exact gfMul_assoc _ _ _ a.val.isLt b.val.isLt c.val.isLt
  one_mul a := by
    apply FieldElement.eq_of_val
    exact gfMul_one_left _ a.val.isLt
  mul_one a := by
    apply FieldElement.eq_of_val
    exact gfMul_one _ a.val.isLt
  mul_comm a b := by
    apply FieldElement.eq_of_val
    exact gfMul_comm _ _ a.val.isLt b.val.isLt
  left_distrib a b c := by
    apply FieldElement.eq_of_val
    exact gfMul_xor_right _ _ _
  right_distrib a b c := by
    apply FieldElement.eq_of_val
    exact gfMul_xor_left _ _ _
  zero_mul a := by
    apply FieldElement.eq_of_val
    exact gfMul_zero_left a.val.val
  mul_zero a := by
    apply FieldElement.eq_of_val
    exact gfMul_zero_right a.val.val

theorem add_val (a b : FieldElement) : (a + b).val.val = a.val.val ^^^ b.val.val := rfl

theorem mul_val (a b : FieldElement) : (a * b).val.val = gfMul a.val.val b.val.val := rfl

theorem zero_val : (0 : FieldElement).val.val = 0 := rfl

theorem one_val : (1 : FieldElement).val.val = 1 := rfl

theorem val_ne_zero (a : FieldElement) (h : a ≠ 0) : a.val.val ≠ 0 := by
  intro hz
  exact h (FieldElement.eq_of_val hz)

instance : Nontrivial FieldElement := ⟨⟨0, 1, by decide⟩⟩

instance : NoZeroDivisors FieldElement := by
  refine ⟨fun {a b} h => ?_⟩
  by_contra hcon
  push_neg at hcon
  exact gfMul_ne_zero a.val.val b.val.val a.val.isLt b.val.isLt
    (val_ne_zero a hcon.1) (val_ne_zero b hcon.2)
    (by rw [← mul_val, h, zero_val])

instance : IsDomain FieldElement := NoZeroDivisors.to_isDomain _

/-- FieldElement and Fin 256 are in bijection. -/
def finEquiv : Fin 256 ≃ FieldElement :=
  ⟨fun i => ⟨i⟩, fun a => a.val, fun i => rfl, fun a => rfl⟩

instance : Fintype FieldElement := Fintype.ofEquiv (Fin 256) finEquiv

theorem card_fieldElement : Fintype.card FieldElement = 256 := by
  rw [← Fintype.card_congr finEquiv]
  exact Fintype.card_fin 256

noncomputable instance : Field FieldElement := Fintype.fieldOfDomain _

/-- FieldElement::invert (src/recovery/sss/field.rs lines 88-96):
253 further multiplications by the element, computing a to the 254.
The source asserts the element is nonzero; the total Lean function is
only ever applied to nonzero denominators in the theorems below. -/
def invert (a : FieldElement) : FieldElement := (fun t => t * a)^[253] a

/-- Div for FieldElement (src/recovery/sss/field.rs lines 205-212):
multiplication by the inverse. -/
def divF (a b : FieldElement) : FieldElement := a * invert b

theorem iterate_mul_eq_pow (a : FieldElement) (k : Nat) :
    (fun t => t * a)^[k] a = a ^ (k + 1) := by
  induction k with
  | zero => simp
  | succ k ih =>
      rw [Function.iterate_succ_apply', ih, ← pow_succ]

theorem invert_eq_inv (a : FieldElement) (h : a ≠ 0) : invert a = a⁻¹ := by
  have h255 : a ^ 255 = 1 := by
    have := FiniteField.pow_card_sub_one_eq_one a h
    rwa [card_fieldElement] at this
  refine eq_inv_of_mul_eq_one_right ?_
  rw [invert, iterate_mul_eq_pow, ← pow_succ']
  exact h255

theorem divF_eq_div (a b : FieldElement) (hb : b ≠ 0) : divF a b = a / b := by
  rw [divF, invert_eq_inv b hb, div_eq_mul_inv]

theorem neg_self (a : FieldElement) : -a = a :=
  neg_eq_of_add_eq_zero_left (FieldElement.eq_of_val (Nat.xor_self _))

/-- FieldElement::from_polynomial (src/recovery/sss/field.rs lines
110-118): Horner evaluation, folding over the coefficients from the
highest degree down. -/
def fromPolynomial (coeffs : List FieldElement) (x : FieldElement) : FieldElement :=
  coeffs.reverse.foldl (fun acc c => acc * x + c) 0

/-- FieldElement::lagrange_at_zero (src/recovery/sss/field.rs lines
138-157): for each point i, accumulate num = ∏ xj and
den = ∏ (xj + xi) over j ≠ i, then add (num / den) * yi. -/
def lagrangeAtZero (points : List (FieldElement × FieldElement)) : FieldElement :=
  points.enum.foldl (fun acc p =>
    divF (points.enum.foldl
            (fun nd q => if p.1 ≠ q.1 then (nd.1 * q.2.1, (q.2.1 + p.2.1) * nd.2) else nd)
            (1, 1)).1
         (points.enum.foldl
            (fun nd q => if p.1 ≠ q.1 then (nd.1 * q.2.1, (q.2.1 + p.2.1) * nd.2) else nd)
            (1, 1)).2
      * p.2.2 + acc) 0

/-- A Shamir share (src/recovery/sss/core.rs lines 58-74): id and
threshold are u8, data is the byte payload. -/
structure Share where
  id : Nat
  threshold : Nat
  data : List Nat
deriving DecidableEq

/-- SecretSharingError (src/recovery/sss/core.rs lines 77-93). -/
inductive SecretSharingError where
  | invalidThreshold
  | notEnoughShares
  | duplicateShareId
  | inconsistentShares
  | invalidShare
deriving DecidableEq

/-- The coefficient vector built by split for one secret byte
(src/recovery/sss/core.rs lines 147-157): coeffs[0] is the secret
byte, coefficients 1..threshold-1 are drawn from the CSPRNG.  The
CSPRNG is abstracted as a byte stream rng, consumed one byte per
coefficient in byte-index-major order. -/
def coeffsAt (rng : Nat → Nat) (t index s : Nat) : List FieldElement :=
  fromByte s :: (List.range (t - 1)).map (fun j => fromByte (rng (index * (t - 1) + j)))

/-- split (src/recovery/sss/core.rs lines 124-168): share ids run from
1 to shareCount, and share k's byte at position index is the Horner
evaluation of that byte's polynomial at the share id. -/
def split (rng : Nat → Nat) (secret : List Nat) (threshold shareCount : Nat) :
    Except SecretSharingError (List Share) :=
  if secret.length = 0 then .error .invalidShare
  else if threshold = 0 ∨ shareCount < threshold then .error .invalidThreshold
  else .ok ((List.range shareCount).map (fun k =>
    { id := k + 1
      threshold := threshold
      data := (List.range secret.length).map (fun index =>
        (fromPolynomial (coeffsAt rng threshold index (secret.getD index 0))
          (fromByte (k + 1))).val.val) }))

/-- The validation loop of combine (src/recovery/sss/core.rs lines
204-221) over the first threshold shares, carrying the list of ids
seen so far. -/
def checkShares : List Share → Nat → Nat → List Nat → Except SecretSharingError Unit
  | [], _, _, _ => .ok ()
  | s :: rest, t, len, seen =>
    if s.id = 0 then .error .invalidShare
    else if s.id ∈ seen then .error .duplicateShareId
    else if s.threshold ≠ t ∨ s.data.length ≠ len then .error .inconsistentShares
    else checkShares rest t len (s.id :: seen)

/-- combine (src/recovery/sss/core.rs lines 193-236): the threshold
and secret length are read from the first share, only the first
threshold shares are validated and interpolated. -/
def combine : List Share → Except SecretSharingError (List Nat)
  | [] => .error .notEnoughShares
  | s0 :: rest =>
    if (s0 :: rest).length < s0.threshold then .error .notEnoughShares
    else
      match checkShares ((s0 :: rest).take s0.threshold) s0.threshold s0.data.length [] with
      | .error e => .error e
      | .ok _ => .ok ((List.range s0.data.length).map (fun index =>
          (lagrangeAtZero (((s0 :: rest).take s0.threshold).map
            (fun s => (fromByte s.id, fromByte (s.data.getD index 0))))).val.val))

theorem sum_range_map (f : Nat → FieldElement) (n : Nat) :
    ((List.range n).map f).sum = ∑ k ∈ Finset.range n, f k := by
  induction n with
  | zero => simp
  | succ n ih =>
      rw [List.range_succ, List.map_append, List.sum_append, Finset.sum_range_succ, ih]
      simp

theorem prod_range_map (f : Nat → FieldElement) (n : Nat) :
    ((List.range n).map f).prod = ∏ k ∈ Finset.range n, f k := by
  induction n with
  | zero => simp
  | succ n ih =>
      rw [List.range_succ, List.map_append, List.prod_append, Finset.prod_range_succ, ih]
      simp

theorem enum_map_eq {α β : Type} (l : List α) (d : α) (g : Nat × α → β) :
    l.enum.map g = (List.range l.length).map (fun k => g (k, l.getD k d)) := by
  apply List.ext_getElem
  · simp
  · intro i h1 h2
    simp only [List.getElem_map, List.getElem_enum, List.getElem_range]
    have hi : i < l.length := by simpa using h2
    rw [List.getD_eq_getElem l d hi]

theorem innerFold_eq (xi : FieldElement) (i : Nat)
    (l : List (Nat × (FieldElement × FieldElement))) (a b : FieldElement) :
    l.foldl (fun nd q => if i ≠ q.1 then (nd.1 * q.2.1, (q.2.1 + xi) * nd.2) else nd) (a, b)
      = (a * (l.map (fun q => if i = q.1 then 1 else q.2.1)).prod,
         b * (l.map (fun q => if i = q.1 then 1 else q.2.1 + xi)).prod) := by
  induction l generalizing a b with
  | nil => simp
  | cons q l ih =>
      by_cases h : i = q.1
      · simp only [List.foldl_cons, List.map_cons, List.prod_cons,
          if_neg (not_not_intro h), if_pos h, ih]
        rw [Prod.mk.injEq]
        constructor <;> ring
      · simp only [List.foldl_cons, List.map_cons, List.prod_cons, if_pos h, if_neg h, ih]
        rw [Prod.mk.injEq]
        constructor <;> ring

theorem outerFold_eq {α : Type} (f : α → FieldElement) (l : List α) (a : FieldElement) :
    l.foldl (fun acc p => f p + acc) a = a + (l.map f).sum := by
  induction l generalizing a with
  | nil => simp
  | cons p l ih =>
      simp only [List.foldl_cons, List.map_cons, List.sum_cons, ih]
      ring

/-- The x-coordinate of the k-th point. -/
def ptX (points : List (FieldElement × FieldElement)) (k : Nat) : FieldElement :=
  (points.getD k (0, 0)).1

/-- The y-coordinate of the k-th point. -/
def ptY (points : List (FieldElement × FieldElement)) (k : Nat) : FieldElement :=
  (points.getD k (0, 0)).2

theorem lagrangeAtZero_eq_sum (points : List (FieldElement × FieldElement)) :
    lagrangeAtZero points = ∑ i ∈ Finset.range points.length,
      divF (∏ j ∈ Finset.range points.length, if i = j then 1 else ptX points j)
           (∏ j ∈ Finset.range points.length, if i = j then 1 else ptX points j + ptX points i)
        * ptY points i := by
  rw [lagrangeAtZero, outerFold_eq, zero_add, enum_map_eq points (0, 0), sum_range_map]
  refine Finset.sum_congr rfl (fun i hi => ?_)
  rw [innerFold_eq, enum_map_eq points (0, 0), enum_map_eq points (0, 0),
    prod_range_map, prod_range_map]
  simp only [one_mul, ptX, ptY]

theorem prod_ite_erase (s : Finset ℕ) (i : ℕ) (g : ℕ → FieldElement) (hi : i ∈ s) :
    (∏ j ∈ s, if i = j then 1 else g j) = ∏ j ∈ s.erase i, g j := by
  rw [← Finset.mul_prod_erase s (fun j => if i = j then 1 else g j) hi, if_pos rfl, one_mul]
  refine Finset.prod_congr rfl (fun j hj => ?_)
  rw [if_neg]
  exact fun h => (Finset.mem_erase.mp hj).1 h.symm

theorem char2_sub_eq_add (a b : FieldElement) : a - b = a + b := by
  rw [sub_eq_add_neg, neg_self]

theorem char2_add_eq_zero_iff (a b : FieldElement) : a + b = 0 ↔ a = b := by
  rw [← char2_sub_eq_add, sub_eq_zero]

/-- lagrange_at_zero computes f(0) for any polynomial f of degree below
the number of points, when the points are pairwise-distinct evaluations
of f. -/
theorem lagrangeAtZero_interpolates (points : List (FieldElement × FieldElement))
    (f : Polynomial FieldElement)
    (hinj : Set.InjOn (ptX points) (Finset.range points.length))
    (hdeg : f.degree < points.length)
    (hy : ∀ k < points.length, ptY points k = f.eval (ptX points k)) :
    lagrangeAtZero points = f.eval 0 := by
  have hcard : (Finset.range points.length).card = points.length := Finset.card_range _
  have hf : f = Lagrange.interpolate (Finset.range points.length) (ptX points)
      (fun i => f.eval (ptX points i)) := by
    refine Lagrange.eq_interpolate hinj ?_
    rwa [hcard]
  rw [lagrangeAtZero_eq_sum]
  conv_rhs => rw [hf]
  rw [Lagrange.interpolate_apply, Polynomial.eval_finset_sum]
  refine Finset.sum_congr rfl (fun i hi => ?_)
  have hi' : i < points.length := Finset.mem_range.mp hi
  have hden : ∀ j ∈ (Finset.range points.length).erase i,
      ptX points j + ptX points i ≠ 0 := by
    intro j hj h0
    have hj' := Finset.mem_erase.mp hj
    have : ptX points j = ptX points i := (char2_add_eq_zero_iff _ _).mp h0
    exact hj'.1 (hinj (by simpa using Finset.mem_range.mp (Finset.mem_of_mem_erase hj))
      (by simpa using hi') this)
  have hdenprod : (∏ j ∈ (Finset.range points.length).erase i,
      (ptX points j + ptX points i)) ≠ 0 :=
    Finset.prod_ne_zero_iff.mpr hden
  rw [prod_ite_erase _ _ _ hi, prod_ite_erase _ _ _ hi,
    divF_eq_div _ _ hdenprod, hy i hi', Polynomial.eval_mul, Polynomial.eval_C]
  rw [Lagrange.basis, Polynomial.eval_prod, div_eq_mul_inv, ← Finset.prod_inv_distrib,
    ← Finset.prod_mul_distrib]
  rw [mul_comm (f.eval (ptX points i))]
  congr 1
  refine Finset.prod_congr rfl (fun j hj => ?_)
  rw [Lagrange.basisDivisor, Polynomial.eval_mul, Polynomial.eval_C, Polynomial.eval_sub,
    Polynomial.eval_X, Polynomial.eval_C, zero_sub, neg_self,
    char2_sub_eq_add, add_comm (ptX points i), mul_comm]

/-- The polynomial denoted by a coefficient list in increasing degree
order, as used by from_polynomial. -/
noncomputable def polyOf (coeffs : List FieldElement) : Polynomial FieldElement :=
  coeffs.foldr (fun c p => Polynomial.C c + Polynomial.X * p) 0

theorem fromPolynomial_eval (coeffs : List FieldElement) (x : FieldElement) :
    fromPolynomial coeffs x = (polyOf coeffs).eval x := by
  induction coeffs with
  | nil => simp [fromPolynomial, polyOf]
  | cons c cs ih =>
      rw [fromPolynomial, List.reverse_cons, List.foldl_append, List.foldl_cons,
        List.foldl_nil, polyOf, List.foldr_cons]
      rw [fromPolynomial] at ih
      rw [ih, polyOf]
      simp only [Polynomial.eval_add, Polynomial.eval_mul, Polynomial.eval_C,
        Polynomial.eval_X]
      ring

theorem polyOf_degree_lt (coeffs : List FieldElement) :
    (polyOf coeffs).degree < (coeffs.length : WithBot ℕ) := by
  induction coeffs with
  | nil => simp [polyOf, Polynomial.degree_zero]
  | cons c cs ih =>
      rw [polyOf, List.foldr_cons]
      refine lt_of_le_of_lt (Polynomial.degree_add_le _ _) (max_lt ?_ ?_)
      · refine lt_of_le_of_lt Polynomial.degree_C_le ?_
        rw [List.length_cons]
        exact_mod_cast Nat.cast_lt.mpr (Nat.succ_pos _)
      · rw [Polynomial.degree_mul, Polynomial.degree_X, List.length_cons]
        calc 1 + (polyOf cs).degree < 1 + (cs.length : WithBot ℕ) :=
              WithBot.add_lt_add_left (by decide) ih
          _ = ((cs.length + 1 : ℕ) : WithBot ℕ) := by
              rw [Nat.cast_add, Nat.cast_one, add_comm]
          _ = _ := rfl

theorem polyOf_eval_zero (c : FieldElement) (cs : List FieldElement) :
    (polyOf (c :: cs)).eval 0 = c := by
  rw [polyOf, List.foldr_cons]
  simp

theorem fromByte_val (a : FieldElement) : fromByte a.val.val = a := by
  apply FieldElement.eq_of_val
  simp [fromByte, Nat.mod_eq_of_lt a.val.isLt]

theorem fromByte_val_eq (b : Nat) (hb : b < 256) : (fromByte b).val.val = b := by
  simp [fromByte, Nat.mod_eq_of_lt hb]

theorem fromByte_inj (a b : Nat) (ha : a < 256) (hb : b < 256)
    (h : fromByte a = fromByte b) : a = b := by
  have := congrArg (fun e => e.val.val) h
  simpa [fromByte, Nat.mod_eq_of_lt ha, Nat.mod_eq_of_lt hb] using this

/-- The share with id k+1 produced by split. -/
def shareAt (rng : Nat → Nat) (secret : List Nat) (t k : Nat) : Share :=
  { id := k + 1
    threshold := t
    data := (List.range secret.length).map (fun index =>
      (fromPolynomial (coeffsAt rng t index (secret.getD index 0))
        (fromByte (k + 1))).val.val) }

theorem shareAt_id (rng : Nat → Nat) (secret : List Nat) (t k : Nat) :
    (shareAt rng secret t k).id = k + 1 := rfl

theorem shareAt_threshold (rng : Nat → Nat) (secret : List Nat) (t k : Nat) :
    (shareAt rng secret t k).threshold = t := rfl

theorem shareAt_data_length (rng : Nat → Nat) (secret : List Nat) (t k : Nat) :
    (shareAt rng secret t k).data.length = secret.length := by
  simp [shareAt]

theorem split_ok (rng : Nat → Nat) (secret : List Nat) (t n : Nat)
    (hsec : secret ≠ []) (ht : t ≠ 0) (htn : t ≤ n) :
    split rng secret t n = .ok ((List.range n).map (shareAt rng secret t)) := by
  rw [split, if_neg (by simpa [List.length_eq_zero] using hsec), if_neg (by omega)]
  rfl

theorem getD_range_map {β : Type} (F : Nat → β) (n i : Nat) (d : β) (h : i < n) :
    ((List.range n).map F).getD i d = F i := by
  rw [List.getD_eq_getElem _ _ (by simpa using h), List.getElem_map, List.getElem_range]

theorem map_getD {α β : Type} (l : List α) (g : α → β) (k : Nat) (d : β) (dl : α)
    (h : k < l.length) :
    (l.map g).getD k d = g (l.getD k dl) := by
  rw [List.getD_eq_getElem _ _ (by simpa using h), List.getElem_map,
    List.getD_eq_getElem _ _ h]

theorem checkShares_ok (l : List Share) (t len : Nat) (seen : List Nat)
    (h : ∀ s ∈ l, s.id ≠ 0 ∧ s.threshold = t ∧ s.data.length = len)
    (hnd : (l.map Share.id).Nodup)
    (hdisj : ∀ s ∈ l, s.id ∉ seen) :
    checkShares l t len seen = .ok () := by
  induction l generalizing seen with
  | nil => rfl
  | cons s rest ih =>
      obtain ⟨h1, h2, h3⟩ := h s (List.mem_cons_self s rest)
      rw [checkShares, if_neg h1, if_neg (hdisj s (List.mem_cons_self s rest)),
        if_neg (by simp [h2, h3])]
      refine ih (s.id :: seen) (fun s' hs' => h s' (List.mem_cons_of_mem s hs'))
        (by simpa using hnd.of_cons) (fun s' hs' => ?_)
      simp only [List.mem_cons]
      push_neg
      refine ⟨?_, hdisj s' (List.mem_cons_of_mem s hs')⟩
      intro heq
      have : s.id ∈ rest.map Share.id := by
        rw [← heq]
        exact List.mem_map_of_mem Share.id hs'
      exact (List.nodup_cons.mp (by simpa using hnd)).1 this

theorem combine_selected (rng : Nat → Nat) (secret : List Nat) (t n : Nat)
    (idxs : List Nat)
    (hsec : secret ≠ []) (hbyte : ∀ b ∈ secret, b < 256)
    (ht : 1 ≤ t) (hn : n < 256)
    (hlen : idxs.length = t) (hnd : idxs.Nodup) (hidx : ∀ i ∈ idxs, i < n) :
    combine (idxs.map (shareAt rng secret t)) = .ok secret := by
  cases idxs with
  | nil =>
      exfalso
      simp at hlen
      omega
  | cons i0 irest =>
  have hlen2 : (shareAt rng secret t i0 :: irest.map (shareAt rng secret t)).length = t := by
    simpa using hlen
  have hthr : (shareAt rng secret t i0).threshold = t := rfl
  have htake : (shareAt rng secret t i0 :: irest.map (shareAt rng secret t)).take t
      = shareAt rng secret t i0 :: irest.map (shareAt rng secret t) :=
    List.take_of_length_le (le_of_eq hlen2)
  have hcheck : checkShares
      (shareAt rng secret t i0 :: irest.map (shareAt rng secret t)) t
      (shareAt rng secret t i0).data.length [] = .ok () := by
    refine checkShares_ok _ _ _ _ (fun s hs => ?_) ?_ (fun s _ => List.not_mem_nil s.id)
    · have : ∃ i, s = shareAt rng secret t i := by
        rcases List.mem_cons.mp hs with h | h
        · exact ⟨i0, h⟩
        · obtain ⟨i, _, hi⟩ := List.mem_map.mp h
          exact ⟨i, hi.symm⟩
      obtain ⟨i, rfl⟩ := this
      exact ⟨by simp [shareAt_id], rfl, by rw [shareAt_data_length, shareAt_data_length]⟩
    · have hmap : (shareAt rng secret t i0 :: irest.map (shareAt rng secret t)).map Share.id
          = (i0 :: irest).map (fun i => i + 1) := by
        rw [← List.map_cons, List.map_map]
        exact List.map_congr_left (fun i _ => rfl)
      rw [hmap]
      exact hnd.map (fun a b hab => by omega)
  rw [List.map_cons, combine, hthr, if_neg (by rw [hlen2]; exact lt_irrefl t), htake, hcheck]
  refine congrArg Except.ok ?_
  apply List.ext_getElem
  · simp [shareAt]
  · intro index h1 h2
    have hidxlen : index < secret.length := h2
    simp only [List.getElem_map, List.getElem_range, shareAt_data_length] at h1 ⊢
    have hpoints : (shareAt rng secret t i0 :: irest.map (shareAt rng secret t)).map
          (fun s => (fromByte s.id, fromByte (s.data.getD index 0)))
        = (i0 :: irest).map (fun i => (fromByte (i + 1),
            fromPolynomial (coeffsAt rng t index (secret.getD index 0)) (fromByte (i + 1)))) := by
      rw [← List.map_cons, List.map_map]
      refine List.map_congr_left (fun i _ => ?_)
      simp only [Function.comp_apply, shareAt_id, shareAt]
      rw [getD_range_map _ _ _ _ hidxlen, fromByte_val]
    rw [hpoints]
    have hptlen : ((i0 :: irest).map (fun i => (fromByte (i + 1),
        fromPolynomial (coeffsAt rng t index (secret.getD index 0)) (fromByte (i + 1))))).length
        = t := by simpa using hlen
    have hclen : (coeffsAt rng t index (secret.getD index 0)).length = t := by
      simp only [coeffsAt, List.length_cons, List.length_map, List.length_range]
      omega
    have hmem : ∀ k (hk : k < (i0 :: irest).length), (i0 :: irest).getD k 0 < n := by
      intro k hk
      rw [List.getD_eq_getElem _ _ hk]
      exact hidx _ (List.getElem_mem hk)
    have hx : ∀ k, k < t → ptX ((i0 :: irest).map (fun i => (fromByte (i + 1),
        fromPolynomial (coeffsAt rng t index (secret.getD index 0)) (fromByte (i + 1))))) k
        = fromByte ((i0 :: irest).getD k 0 + 1) := by
      intro k hk
      rw [ptX, map_getD _ _ _ _ 0 (by simp at hlen ⊢; omega)]
    have hy : ∀ k, k < t → ptY ((i0 :: irest).map (fun i => (fromByte (i + 1),
        fromPolynomial (coeffsAt rng t index (secret.getD index 0)) (fromByte (i + 1))))) k
        = fromPolynomial (coeffsAt rng t index (secret.getD index 0))
            (fromByte ((i0 :: irest).getD k 0 + 1)) := by
      intro k hk
      rw [ptY, map_getD _ _ _ _ 0 (by simp at hlen ⊢; omega)]
    have hinterp := lagrangeAtZero_interpolates
      ((i0 :: irest).map (fun i => (fromByte (i + 1),
        fromPolynomial (coeffsAt rng t index (secret.getD index 0)) (fromByte (i + 1)))))
      (polyOf (coeffsAt rng t index (secret.getD index 0)))
      (by
        intro a ha b hb hab
        rw [hptlen] at ha hb
        simp only [Finset.coe_range, Set.mem_Iio] at ha hb
        have hla : a < (i0 :: irest).length := by rw [hlen]; exact ha
        have hlb : b < (i0 :: irest).length := by rw [hlen]; exact hb
        rw [hx a ha, hx b hb] at hab
        have ha' : (i0 :: irest).getD a 0 + 1 < 256 := by
          have := hmem a hla
          omega
        have hb' : (i0 :: irest).getD b 0 + 1 < 256 := by
          have := hmem b hlb
          omega
        have heq := fromByte_inj _ _ ha' hb' hab
        have hgd : (i0 :: irest).getD a 0 = (i0 :: irest).getD b 0 := by omega
        rw [List.getD_eq_getElem _ _ hla, List.getD_eq_getElem _ _ hlb] at hgd
        exact (List.Nodup.getElem_inj_iff hnd).mp hgd)
      (by
        have hdl := polyOf_degree_lt (coeffsAt rng t index (secret.getD index 0))
        rw [hclen] at hdl
        rw [hptlen]
        exact hdl)
      (by
        intro k hk
        rw [hptlen] at hk
        rw [hx k hk, hy k hk, fromPolynomial_eval])
    rw [hinterp]
    have hcz : (polyOf (coeffsAt rng t index (secret.getD index 0))).eval 0
        = fromByte (secret.getD index 0) := by
      rw [coeffsAt, polyOf_eval_zero]
    rw [hcz, List.getD_eq_getElem _ _ hidxlen, fromByte_val_eq]
    exact hbyte _ (List.getElem_mem hidxlen)

/-- C3: for every non-empty secret of bytes and thresholds 1 ≤ t ≤ n
(with n a valid u8 share count), split succeeds, combine applied to
any t of the n returned shares yields the original secret, and combine
applied to fewer than t of those shares returns NotEnoughShares. -/
theorem shamir_threshold_correct
    (rng : Nat → Nat) (secret : List Nat) (t n : Nat) (idxs : List Nat)
    (hsec : secret ≠ []) (hbyte : ∀ b ∈ secret, b < 256)
    (ht : 1 ≤ t) (htn : t ≤ n) (hn : n < 256)
    (hlen : idxs.length = t) (hnd : idxs.Nodup) (hidx : ∀ i ∈ idxs, i < n) :
    ∃ shares, split rng secret t n = .ok shares ∧
      combine (idxs.map (fun i => shares.getD i (Share.mk 0 0 []))) = .ok secret ∧
      ∀ sel : List Share, (∀ s ∈ sel, s ∈ shares) → sel.length < t →
        combine sel = .error .notEnoughShares := by
  refine ⟨(List.range n).map (shareAt rng secret t),
    split_ok rng secret t n hsec (by omega) htn, ?_, ?_⟩
  · have hsel : idxs.map
        (fun i => ((List.range n).map (shareAt rng secret t)).getD i (Share.mk 0 0 []))
        = idxs.map (shareAt rng secret t) :=
      List.map_congr_left (fun i hi => getD_range_map _ _ _ _ (hidx i hi))
    rw [hsel]
    exact combine_selected rng secret t n idxs hsec hbyte ht hn hlen hnd hidx
  · intro sel hsub hslen
    cases sel with
    | nil => rfl
    | cons s srest =>
        obtain ⟨k, hk, hks⟩ := List.mem_map.mp (hsub s (List.mem_cons_self s srest))
        rw [combine, if_pos (by rw [← hks, shareAt_threshold]; exact hslen)]

/-- Witness for C3 at secret [42, 100], t = 2, n = 3, shares 0 and 2. -/
theorem shamir_threshold_correct_witness :
    ∃ shares, split (fun _ => 7) [42, 100] 2 3 = .ok shares ∧
      combine ([0, 2].map (fun i => shares.getD i (Share.mk 0 0 []))) = .ok [42, 100] ∧
      ∀ sel : List Share, (∀ s ∈ sel, s ∈ shares) → sel.length < 2 →
        combine sel = .error .notEnoughShares :=
  shamir_threshold_correct (fun _ => 7) [42, 100] 2 3 [0, 2] (by decide) (by decide)
    (by decide) (by decide) (by decide) (by decide) (by decide) (by decide)

/-- C10: combine inspects only the first threshold shares — appending
any extra shares (well-formed or not) after a prefix that already
holds at least threshold shares changes neither the error behaviour
nor the reconstructed secret. -/
theorem combine_reads_only_first_threshold
    (s0 : Share) (rest extra : List Share)
    (h : s0.threshold ≤ (s0 :: rest).length) :
    combine ((s0 :: rest) ++ extra) = combine (s0 :: rest) := by
  have htake : ((s0 :: rest) ++ extra).take s0.threshold = (s0 :: rest).take s0.threshold :=
    List.take_append_of_le_length h
  rw [List.cons_append] at htake
  simp only [combine, List.cons_append]
  rw [htake, if_neg (by
    simp only [List.length_cons, List.length_append]
    simp only [List.length_cons] at h
    omega), if_neg (not_lt.mpr h)]

/-- Witness for C10: a share list of length 1 with threshold 1,
followed by a malformed extra share with id 0 and a wrong threshold. -/
theorem combine_reads_only_first_threshold_witness :
    combine ([Share.mk 1 1 [5]] ++ [Share.mk 0 9 []]) = combine [Share.mk 1 1 [5]] :=
  combine_reads_only_first_threshold (Share.mk 1 1 [5]) [] [Share.mk 0 9 []] (by decide)

end Sss
